import Mathlib

/-!
# Verification of the trading-journal core (CSV codec, reconciliation, stats, mutations)

Shallow embedding of the JavaScript `TradingJournal` class (`src/script.js`,
two revisions, and `src/unnamed/part_000`, the most complete revision).

Modelling conventions:
* JavaScript numbers are modelled exactly: integer-valued identifiers as
  `Option Int` and PnL values as `Option Rat`, where `none` stands for `NaN`
  (so that `NaN === NaN` being false, `NaN > 0` being false, and
  `NaN + x = NaN` are all captured).  Floating-point rounding is abstracted
  away: all arithmetic is exact.
* Strings are processed as `List Char`; `String` is used in the record type.
* The JS builtins `parseInt`, `parseFloat`, `String(n)`, `trim`,
  `split('\n')` and the regex replaces are modelled as executable functions
  on `List Char` mirroring their (relevant subset of) semantics.
* DOM access, localStorage persistence and status messages are out of scope
  (they are the external shims in the spec); `confirm(...)` dialogs are
  modelled as already confirmed at the boundary, per the spec's design notes.
-/

/-! ## Characters, whitespace, trimming, splitting -/

/-- Whitespace as recognised by the model of `String.prototype.trim`
(space, tab, newline, carriage return; the common subset of JS `\s`). -/
def isWS (c : Char) : Bool :=
  c == ' ' || c == '\t' || c == '\n' || c == '\r'

/-- Drop trailing whitespace (the right half of JS `trim`). -/
def trimEnd (l : List Char) : List Char :=
  (l.reverse.dropWhile isWS).reverse

/-- Model of JS `String.prototype.trim`: drop leading and trailing whitespace. -/
def trimChars (l : List Char) : List Char :=
  trimEnd (l.dropWhile isWS)

/-- Model of JS `text.split('\n')`: split on every newline, keeping empty
segments (`split` of the empty string yields one empty segment). -/
def splitNl : List Char → List (List Char)
  | [] => [[]]
  | c :: rest =>
    if c = '\n' then [] :: splitNl rest
    else
      match splitNl rest with
      | g :: gs => (c :: g) :: gs
      | [] => [[c]]

/-- `a.isPrefixOf b` for char lists, used for `tradeSetup.startsWith(...)`. -/
def startsWithL : List Char → List Char → Bool
  | [], _ => true
  | _ :: _, [] => false
  | p :: ps, c :: cs => p == c && startsWithL ps cs

/-! ## JS number model: `Option Int` / `Option Rat`, `none` is `NaN` -/

/-- JS `===` on numbers: `NaN === x` is always false. -/
def jnumEq : Option Int → Option Int → Bool
  | some a, some b => a == b
  | _, _ => false

/-- JS `x >= n` where `x` may be `NaN` (then the comparison is false). -/
def jgeB : Option Int → Int → Bool
  | some a, n => decide (n ≤ a)
  | none, _ => false

/-- JS `x < n` read off an identifier: `NaN` ids carry no integer value, the
invariant constrains the integer-valued identifiers. -/
def jltB : Option Int → Int → Bool
  | some a, n => decide (a < n)
  | none, _ => true

/-- JS `+` on possibly-NaN numbers: NaN propagates. -/
def jadd : Option Rat → Option Rat → Option Rat
  | some a, some b => some (a + b)
  | _, _ => none

/-- JS `x > 0` on a possibly-NaN number (`NaN > 0` is false). -/
def jgtZ : Option Rat → Bool
  | some a => decide (0 < a)
  | none => false

/-- JS `x < 0` on a possibly-NaN number (`NaN < 0` is false). -/
def jltZ : Option Rat → Bool
  | some a => decide (a < 0)
  | none => false

/-- JS division of a possibly-NaN number by a (positive) count. -/
def jdivN (a : Option Rat) (n : Nat) : Option Rat :=
  a.map (fun x => x / (n : Rat))

/-- JS `Math.abs` on a possibly-NaN number. -/
def jabs : Option Rat → Option Rat
  | some a => some |a|
  | none => none

/-! ## Decimal digits: rendering and parsing -/

/-- The ten decimal digit characters, by value. -/
def digitChar : Nat → Char
  | 0 => '0' | 1 => '1' | 2 => '2' | 3 => '3' | 4 => '4'
  | 5 => '5' | 6 => '6' | 7 => '7' | 8 => '8' | _ => '9'

/-- Value of a decimal digit character (`0` for non-digits; callers guard
with `Char.isDigit`). -/
def digitVal (c : Char) : Nat :=
  c.toNat - 48

/-- Fuel-driven base-10 digit expansion, little-endian (`[]` for `0`).
Agrees with `Nat.digits 10` when the fuel is at least the number. -/
def digitsF : Nat → Nat → List Nat
  | 0, _ => []
  | fuel + 1, n => if n = 0 then [] else n % 10 :: digitsF fuel (n / 10)

/-- Decimal rendering of a natural number (model of JS `String(n)`). -/
def natRepr (n : Nat) : List Char :=
  if n = 0 then ['0'] else ((digitsF n n).reverse.map digitChar)

/-- Decimal rendering of an integer (model of JS `String(n)`). -/
def intRepr (n : Int) : List Char :=
  (if n < 0 then ['-'] else []) ++ natRepr n.natAbs

/-- Value of a most-significant-first digit string. -/
def parseNatD (ds : List Char) : Nat :=
  ds.foldl (fun acc c => acc * 10 + digitVal c) 0

/-- Split a leading `+`/`-` sign, returning whether it was `-`. -/
def splitSign : List Char → Bool × List Char
  | '-' :: r => (true, r)
  | '+' :: r => (false, r)
  | r => (false, r)

/-- Model of JS `parseInt(s)` (radix 10): skip leading whitespace, optional
sign, then the longest digit run; `NaN` (= `none`) if there is none.
Trailing garbage is ignored, e.g. `parseInt("3abc") = 3`. -/
def parseIntJS (l : List Char) : Option Int :=
  let l1 := l.dropWhile isWS
  let sr := splitSign l1
  let ds := sr.2.takeWhile Char.isDigit
  if ds = [] then none
  else some (if sr.1 then -(parseNatD ds : Int) else (parseNatD ds : Int))

/-- Model of JS `parseFloat(s)` on plain decimal notation: skip leading
whitespace, optional sign, digits, optional `.` and more digits; `NaN`
(= `none`) when no digit is found.  Trailing garbage is ignored.  Exponent
notation and `Infinity` are outside the modelled subset (the journal never
produces them). -/
def parseFloatJS (l : List Char) : Option Rat :=
  let l1 := l.dropWhile isWS
  let sr := splitSign l1
  let ds := sr.2.takeWhile Char.isDigit
  let r := sr.2.drop ds.length
  match r with
  | '.' :: r2 =>
    let fs := r2.takeWhile Char.isDigit
    if ds = [] ∧ fs = [] then none
    else
      let v : Rat := (parseNatD ds : Rat) + (parseNatD fs : Rat) / (10 : Rat) ^ fs.length
      some (if sr.1 then -v else v)
  | _ =>
    if ds = [] then none
    else some (if sr.1 then -((parseNatD ds : Nat) : Rat) else ((parseNatD ds : Nat) : Rat))

/-! ## Rendering rationals with a finite decimal expansion

JS stores PnL as a float and renders its shortest decimal form.  In the
exact model, every number the program produces comes from `parseFloat` on a
decimal string, hence is a rational whose reduced denominator is of the form
`2^a * 5^b`.  `ratRepr` renders exactly those correctly (minimal number of
fractional digits, no trailing zeros, like JS). -/

/-- Fuel-driven factor extraction: `pSplitF fuel p n = (k, m)` with
`n = p^k * m` and `p` not dividing `m`, provided `n ≤ fuel`, `2 ≤ p`, `n ≠ 0`. -/
def pSplitF : Nat → Nat → Nat → Nat × Nat
  | 0, _, n => (0, n)
  | fuel + 1, p, n =>
    if 2 ≤ p ∧ p ∣ n ∧ n ≠ 0 then
      let r := pSplitF fuel p (n / p)
      (r.1 + 1, r.2)
    else (0, n)

/-- Multiplicity of the prime `p` in `n` (for `2 ≤ p`, `n ≠ 0`). -/
def pCount (p n : Nat) : Nat := (pSplitF n p n).1

/-- `n` with all factors `p` removed (for `2 ≤ p`, `n ≠ 0`). -/
def pRem (p n : Nat) : Nat := (pSplitF n p n).2

/-- A rational has a finite decimal expansion iff its reduced denominator
has no prime factors besides 2 and 5. -/
def isDec (q : Rat) : Bool :=
  pRem 5 (pRem 2 q.den) == 1

/-- Number of fractional digits needed for `q` (when `isDec q`). -/
def decScale (q : Rat) : Nat :=
  max (pCount 2 q.den) (pCount 5 q.den)

/-- `q * 10^(decScale q)` as an integer (exact when `isDec q`). -/
def decMant (q : Rat) : Int :=
  q.num * ((10 ^ decScale q) / q.den : Nat)

/-- Pad a digit string on the left with zeros to length `k`. -/
def padZeros (k : Nat) (l : List Char) : List Char :=
  List.replicate (k - l.length) '0' ++ l

/-- Decimal rendering of a rational (model of JS `String(x)` for floats;
exact for rationals with a finite decimal expansion, which are the only
ones the program produces). -/
def ratRepr (q : Rat) : List Char :=
  let k := decScale q
  let m := decMant q
  let sgn : List Char := if m < 0 then ['-'] else []
  let a := m.natAbs
  if k = 0 then sgn ++ natRepr a
  else sgn ++ natRepr (a / 10 ^ k) ++ '.' :: padZeros k (natRepr (a % 10 ^ k))

/-- Model of JS `String(x)` on a possibly-NaN integer (`String(NaN) = "NaN"`). -/
def jnumIntRepr : Option Int → List Char
  | some n => intRepr n
  | none => ['N', 'a', 'N']

/-- Model of JS `String(x)` on a possibly-NaN rational. -/
def jnumRatRepr : Option Rat → List Char
  | some q => ratRepr q
  | none => ['N', 'a', 'N']

/-! ## The Trade record and journal state -/

/-- One logged trade.  `id` and `pnl` are JS numbers (possibly `NaN`);
`ticker` is `none` where the field is absent (first revision's records and
every CSV-imported record — the 8-field schema does not carry it). -/
@[ext] structure Trade where
  id : Option Int
  date : String
  tradeSetup : String
  ticker : Option String
  rr : String
  pnl : Option Rat
  activeMgmt : String
  execution : String
  note : String
deriving DecidableEq, Repr

instance : Inhabited Trade :=
  ⟨⟨none, "", "", none, "", none, "", "", ""⟩⟩

/-- The mutable core of the `TradingJournal` class: the collection and the
identifier counter. -/
@[ext] structure TradingJournal where
  trades : List Trade
  nextId : Int
deriving DecidableEq, Repr

/-- The initial state (constructor defaults / cold storage fallback). -/
def initJournal : TradingJournal := ⟨[], 1⟩

/-- `List Char` view of a string. -/
def chars (s : String) : List Char := s.data

/-- The fixed CSV header `this.CSV_HEADER`. -/
def headerChars : List Char := chars ("ID,Date,TradeSetup,RR,PnL,ActiveMgmt,Execution,Note")

/-! ## CSV encoding (`escapeCSVField`, `exportToCSV`) -/

/-- Model of `field.replace(/"/g, '""')`: double every double-quote. -/
def replQQ : List Char → List Char
  | [] => []
  | '"' :: r => '"' :: '"' :: replQQ r
  | c :: r => c :: replQQ r

/-- `escapeCSVField`: wrap in quotes and double internal quotes when the
field contains a comma, a newline or a quote; otherwise verbatim. -/
def escapeCSVField (s : List Char) : List Char :=
  if s.contains ',' ∨ s.contains '\n' ∨ s.contains '"' then
    '"' :: replQQ s ++ ['"']
  else s

/-- Join field texts with commas (the `[...].join(',')` in `exportToCSV`). -/
def joinComma : List (List Char) → List Char
  | [] => []
  | [f] => f
  | f :: r => f ++ ',' :: joinComma r

/-- One CSV data row of `exportToCSV` (first revision: only the note field
goes through `escapeCSVField`; the later revision additionally escapes
`activeMgmt`, but no revision escapes the other fields).  The `ticker`
field is not part of the 8-field schema and is not exported. -/
def encodeRow (t : Trade) : List Char :=
  joinComma [jnumIntRepr t.id, chars t.date, chars t.tradeSetup, chars t.rr,
    jnumRatRepr t.pnl, chars t.activeMgmt, chars t.execution,
    escapeCSVField (chars t.note)]

/-- The data rows of the export: `csvContent += row + '\n'` for each trade. -/
def encodeBody : List Trade → List Char
  | [] => []
  | t :: ts => encodeRow t ++ '\n' :: encodeBody ts

/-- The full CSV document produced by `exportToCSV`. -/
def csvDoc (ts : List Trade) : List Char :=
  headerChars ++ '\n' :: encodeBody ts

/-- `exportToCSV`: errors (`'No trades to export'`) on an empty collection,
otherwise produces the header line plus one line per record. -/
def exportToCSV (ts : List Trade) : Option (List Char) :=
  if ts = [] then none else some (csvDoc ts)

/-! ## CSV line scanner (`parseCSVLine`) -/

/-- Model of the final `current.replace(/""/g, '"')`: collapse doubled
quotes left-to-right, non-overlapping. -/
def collapseQQ : List Char → List Char
  | '"' :: '"' :: rest => '"' :: collapseQQ rest
  | c :: rest => c :: collapseQQ rest
  | [] => []

/-- The character loop of `parseCSVLine`.  `prev` is `line[i-1]` (`none` at
the start), `inQ` the quote state, `cur` the accumulated field.  The five
branches are, in source order: quote after start/comma opens quoted mode;
quote before comma/end closes it; unquoted comma pushes the field; any
other character (including a lone quote) is appended; a doubled quote in
quoted mode appends one quote and skips the next (`i++`).  The `[]` arm of
the inner match is unreachable (the guard requires a following quote). -/
def scanLine : List Char → Option Char → Bool → List Char → List (List Char)
  | [], _, _, cur => [collapseQQ cur]
  | c :: rest, prev, inQ, cur =>
    if c = '"' ∧ (prev = none ∨ prev = some ',') then
      scanLine rest (some '"') true cur
    else if c = '"' ∧ inQ ∧ (rest.head? = none ∨ rest.head? = some ',') then
      scanLine rest (some '"') false cur
    else if c = ',' ∧ inQ = false then
      collapseQQ cur :: scanLine rest (some ',') inQ []
    else if ¬(c = '"' ∧ inQ = true ∧ rest.head? = some '"') then
      scanLine rest (some c) inQ (cur ++ [c])
    else
      match rest with
      | q :: rest2 => scanLine rest2 (some q) inQ (cur ++ [c])
      | [] => [collapseQQ (cur ++ [c])]

/-- `parseCSVLine`: scan the line into fields; reject unless there are
exactly 8; reject if a required field (all but the note) is empty; build
the record, trimming the text fields and parsing `id` with `parseInt` and
`pnl` with `parseFloat` (neither parse is checked for `NaN`). -/
def parseCSVLine (l : List Char) : Option Trade :=
  match scanLine l none false [] with
  | [i, d, ts, rr, p, am, ex, nt] =>
    if i = [] ∨ d = [] ∨ ts = [] ∨ rr = [] ∨ p = [] ∨ am = [] ∨ ex = [] then none
    else some
      { id := parseIntJS i
        date := String.mk (trimChars d)
        tradeSetup := String.mk (trimChars ts)
        ticker := none
        rr := String.mk (trimChars rr)
        pnl := parseFloatJS p
        activeMgmt := String.mk (trimChars am)
        execution := String.mk (trimChars ex)
        note := String.mk (trimChars nt) }
  | _ => none

/-! ## Import: reconciliation (`processCSVData`) -/

/-- The merge step of `processCSVData` for one successfully parsed record:
if its `id` already occurs (JS `===`, so `NaN` never matches), reassign
`trade.id = this.nextId++`; push; then if `trade.id >= this.nextId`, set
`this.nextId = trade.id + 1`. -/
def importStep (s : TradingJournal) (tr : Trade) : TradingJournal :=
  let c :=
    if (s.trades.find? (fun t => jnumEq t.id tr.id)).isSome then
      ({ tr with id := some s.nextId }, s.nextId + 1)
    else (tr, s.nextId)
  let n3 := if jgeB c.1.id c.2 then (c.1.id.getD 0) + 1 else c.2
  { trades := s.trades ++ [c.1], nextId := n3 }

/-- The per-line loop of `processCSVData`: blank lines are ignored; a parsed
line is merged and counted as imported; an unparsable one only bumps the
skip counter. -/
def importLines (s : TradingJournal) (lines : List (List Char)) (imported skipped : Nat) :
    TradingJournal × Nat × Nat :=
  match lines with
  | [] => (s, imported, skipped)
  | l :: rest =>
    if trimChars l = [] then importLines s rest imported skipped
    else
      match parseCSVLine l with
      | some tr => importLines (importStep s tr) rest (imported + 1) skipped
      | none => importLines s rest imported (skipped + 1)

/-- Outcome of an import (`showStatus` messages of `processCSVData`). -/
inductive ImportResult where
  | emptyFile
  | headerMismatch
  | ok (imported skipped : Nat)
deriving DecidableEq, Repr

/-- `processCSVData`: trim the document, split into lines; fewer than two
lines is the empty-file error; a first line whose trim is not the fixed
header is the header error; otherwise process each data line. -/
def processCSVData (s : TradingJournal) (text : List Char) : TradingJournal × ImportResult :=
  match splitNl (trimChars text) with
  | l0 :: l1 :: rest =>
    if trimChars l0 ≠ headerChars then (s, .headerMismatch)
    else
      let r := importLines s (l1 :: rest) 0 0
      (r.1, .ok r.2.1 r.2.2)
  | _ => (s, .emptyFile)

/-! ## Pure document decode (the codec view of `processCSVData`)

`parseCSVLine` does not depend on the journal state, so the parsing phase
of `processCSVData` factors out of the merge; `decodeCSV` is that phase
(spec section 4.1, decode document → records).  The theorem
`processCSVData_eq_decode_merge` below ties it to the source loop. -/

/-- Decode the data lines: the parsed records in order and the skip count. -/
def decodeLines : List (List Char) → List Trade × Nat
  | [] => ([], 0)
  | l :: rest =>
    let r := decodeLines rest
    if trimChars l = [] then r
    else
      match parseCSVLine l with
      | some tr => (tr :: r.1, r.2)
      | none => (r.1, r.2 + 1)

/-- Document decode: `none` on the empty-file or header error, otherwise
the decoded records and the skip count. -/
def decodeCSV (text : List Char) : Option (List Trade × Nat) :=
  match splitNl (trimChars text) with
  | l0 :: l1 :: rest =>
    if trimChars l0 ≠ headerChars then none
    else some (decodeLines (l1 :: rest))
  | _ => none

/-! ## Statistics (`calculateStats`, `calculateStatsForTrades`) -/

/-- The five aggregates of `calculateStatsForTrades`. -/
@[ext] structure Stats where
  totalPnl : Option Rat
  totalTrades : Nat
  winRate : Int
  avgWin : Option Rat
  avgLoss : Option Rat
deriving DecidableEq, Repr

/-- `trades.reduce((sum, t) => sum + t.pnl, 0)` with JS addition. -/
def sumPnl (l : List Trade) : Option Rat :=
  l.foldl (fun acc t => jadd acc t.pnl) (some 0)

/-- `calculateStatsForTrades`: zeros for the empty view, otherwise total,
count, `Math.round`ed win percentage, mean winning PnL and absolute mean
losing PnL. -/
def calculateStatsForTrades (l : List Trade) : Stats :=
  if l.length = 0 then ⟨some 0, 0, 0, some 0, some 0⟩
  else
    let winning := l.filter (fun t => jgtZ t.pnl)
    let losing := l.filter (fun t => jltZ t.pnl)
    { totalPnl := sumPnl l
      totalTrades := l.length
      winRate := round (((winning.length : Rat) / (l.length : Rat)) * 100)
      avgWin := if winning.length > 0 then jdivN (sumPnl winning) winning.length else some 0
      avgLoss := if losing.length > 0 then jabs (jdivN (sumPnl losing) losing.length) else some 0 }

/-- Setup-category filter `t.tradeSetup.startsWith(p)`. -/
def setupStarts (p : String) (t : Trade) : Bool :=
  startsWithL (chars p) (chars t.tradeSetup)

/-- `calculateStats`: the overall view and the two category views. -/
def calculateStats (l : List Trade) : Stats × Stats × Stats :=
  (calculateStatsForTrades l,
   calculateStatsForTrades (l.filter (setupStarts ("Scalp:"))),
   calculateStatsForTrades (l.filter (setupStarts ("Swing:"))))

/-! ## Form mutations (`addTrade` create/update, `deleteTrade`, `clearAllData`) -/

/-- The validated form fields read by `getFormData` (latest revision,
which includes `ticker`). -/
structure FormData where
  tradeSetup : String
  ticker : String
  rr : String
  pnl : String
  activeMgmt : String
  execution : String
  note : String
deriving DecidableEq, Repr

/-- `validateFormData`: every required field non-empty and PnL parses. -/
def validateFormData (fd : FormData) : Bool :=
  fd.tradeSetup != "" && fd.ticker != "" && fd.rr != "" && fd.pnl != "" &&
  fd.activeMgmt != "" && fd.execution != "" && (parseFloatJS (chars fd.pnl)).isSome

/-- The R:R pattern of `validateRRInput`: digits, optional fraction, `:1`. -/
def rrPat (l : List Char) : Bool :=
  let ds := l.takeWhile Char.isDigit
  let r1 := l.drop ds.length
  decide (ds ≠ []) &&
    (r1 == [':', '1'] ||
      match r1 with
      | '.' :: r2 =>
        let fs := r2.takeWhile Char.isDigit
        decide (fs ≠ []) && r2.drop fs.length == [':', '1']
      | _ => false)

/-- `validateRRInput`: an empty (trimmed) value passes, otherwise the
pattern must match. -/
def validateRRInput (s : String) : Bool :=
  let v := trimChars (chars s)
  v == [] || rrPat v

/-- First index where the predicate holds (JS `findIndex`, `none` for -1). -/
def findIndexJ (p : Trade → Bool) : List Trade → Option Nat
  | [] => none
  | t :: ts => if p t then some 0 else (findIndexJ p ts).map (· + 1)

/-- `addTrade` (latest revision): R:R and form validation first; with a
non-null `editId` replace everything but `id` and `date` on the matching
record (failure flag if none matches); with a null `editId` append a fresh
record with `id = nextId` and today's date.  The `Bool` is the
success/error status reported through `showStatus`. -/
def addTrade (s : TradingJournal) (editId : Option (Option Int)) (today : String)
    (fd : FormData) : TradingJournal × Bool :=
  if ¬ validateRRInput fd.rr then (s, false)
  else if ¬ validateFormData fd then (s, false)
  else
    match editId with
    | some jid =>
      match findIndexJ (fun t => jnumEq t.id jid) s.trades with
      | none => (s, false)
      | some i =>
        let nt : Trade :=
          { id := jid
            date := ((s.trades.getD i default).date)
            tradeSetup := fd.tradeSetup
            ticker := some fd.ticker
            rr := fd.rr
            pnl := parseFloatJS (chars fd.pnl)
            activeMgmt := fd.activeMgmt
            execution := fd.execution
            note := fd.note }
        ({ s with trades := s.trades.set i nt }, true)
    | none =>
      ({ trades := s.trades ++
          [{ id := some s.nextId
             date := today
             tradeSetup := fd.tradeSetup
             ticker := some fd.ticker
             rr := fd.rr
             pnl := parseFloatJS (chars fd.pnl)
             activeMgmt := fd.activeMgmt
             execution := fd.execution
             note := fd.note }]
         nextId := s.nextId + 1 }, true)

/-- `deleteTrade` (latest revision): splice out the first record matching
the id; report not-found otherwise (confirmation is at the boundary). -/
def deleteTrade (s : TradingJournal) (jid : Option Int) : TradingJournal × Bool :=
  match findIndexJ (fun t => jnumEq t.id jid) s.trades with
  | some i => ({ s with trades := s.trades.eraseIdx i }, true)
  | none => (s, false)

/-- `clearAllData` (confirmation at the boundary): empty collection,
counter reset to 1. -/
def clearAllData (_s : TradingJournal) : TradingJournal := initJournal

/-! ## Reachable states -/

/-- States reachable from the initial state by the five operations
(create, update, delete, clear, import). -/
inductive Reachable : TradingJournal → Prop
  | init : Reachable initJournal
  | addT {s} (editId : Option (Option Int)) (today : String) (fd : FormData) :
      Reachable s → Reachable (addTrade s editId today fd).1
  | del {s} (jid : Option Int) : Reachable s → Reachable (deleteTrade s jid).1
  | clear {s} : Reachable s → Reachable (clearAllData s)
  | imp {s} (text : List Char) : Reachable s → Reachable (processCSVData s text).1

/-- The identifier invariant: the counter strictly exceeds every
integer-valued id in the collection. -/
def idInv (s : TradingJournal) : Prop :=
  ∀ t ∈ s.trades, jltB t.id s.nextId = true

/-! ## Side conditions for the amended round-trip claim -/

/-- A non-note field round-trips verbatim when it is non-empty, free of
comma/quote/newline, and whitespace-trimmed. -/
def plainFieldB (s : String) : Bool :=
  decide (chars s ≠ []) && !(chars s).contains ',' && !(chars s).contains '"' &&
    !(chars s).contains '\n' && trimChars (chars s) == chars s

/-- Scanner-compatibility of a note's content in quoted mode: no doubled
quote (the final `replace(/""/g,'"')` would over-collapse it) and no quote
that is both immediately preceded and immediately followed by a comma (the
open-quote branch would fire mid-field and the next quote would close the
field early).  `p` tracks the previous character. -/
def qok : Char → List Char → Bool
  | _, [] => true
  | p, c :: rest =>
    if c = '"' then
      (rest.head? != some '"') && !(p == ',' && rest.head? == some ',') && qok '"' rest
    else qok c rest

/-- A note round-trips when it is newline-free, whitespace-trimmed, and
scanner-compatible. -/
def goodNoteB (s : String) : Bool :=
  !(chars s).contains '\n' && trimChars (chars s) == chars s && qok '"' (chars s)

/-- A PnL value round-trips when it is `NaN` or has a finite decimal
expansion (every value `parseFloat` produces does). -/
def pnlOkB : Option Rat → Bool
  | none => true
  | some q => isDec q

/-- Conditions under which one trade survives the encode/decode round trip. -/
def goodTradeB (t : Trade) : Bool :=
  t.ticker == none && plainFieldB t.date && plainFieldB t.tradeSetup &&
    plainFieldB t.rr && plainFieldB t.activeMgmt && plainFieldB t.execution &&
    pnlOkB t.pnl && goodNoteB t.note

/-! ## Spec-side definitions (for refinement-style comparisons) -/

/-- Modelled from the spec's words: a field contains a delimiter-significant
character (comma, double-quote or newline). -/
def hasSpecialB (s : List Char) : Bool :=
  s.contains ',' || s.contains '"' || s.contains '\n'

/-- Modelled from the spec's words: double every internal double-quote. -/
def doubledSpec : List Char → List Char
  | [] => []
  | c :: r => (if c = '"' then ['"', '"'] else [c]) ++ doubledSpec r

/-- Modelled from the spec's words: wrap in surrounding double-quotes with
every internal double-quote doubled. -/
def quoteWrapSpec (s : List Char) : List Char :=
  '"' :: doubledSpec s ++ ['"']

/-- The raw (unescaped) texts of the 8 schema fields of a record. -/
def rawFields (t : Trade) : List (List Char) :=
  [jnumIntRepr t.id, chars t.date, chars t.tradeSetup, chars t.rr,
   jnumRatRepr t.pnl, chars t.activeMgmt, chars t.execution, chars t.note]

/-- The row claim C5 asserts `exportToCSV` produces: every field escaped. -/
def escapeAllRow (t : Trade) : List Char :=
  joinComma ((rawFields t).map escapeCSVField)

/-- The PnL of a record read as a rational (0 for `NaN`; used only under
the all-numeric hypothesis). -/
def pnlV (t : Trade) : Rat := t.pnl.getD 0

/-- Modelled from the spec's words (section 4.3): per-view aggregates —
total, count, rounded win percentage, mean winning PnL, mean absolute
losing PnL. -/
def specStatsView (l : List Trade) : Stats :=
  let wins := l.filter fun t => decide (0 < pnlV t)
  let losses := l.filter fun t => decide (pnlV t < 0)
  { totalPnl := some ((l.map pnlV).sum)
    totalTrades := l.length
    winRate := if l.length = 0 then 0 else round ((100 : Rat) * ((wins.length : Rat) / (l.length : Rat)))
    avgWin := some (if wins.length = 0 then 0 else ((wins.map pnlV).sum) / (wins.length : Rat))
    avgLoss := some (if losses.length = 0 then 0 else ((losses.map (fun t => |pnlV t|)).sum) / (losses.length : Rat)) }

/-- The data rows joined by newlines without the trailing newline: the
trim-fixed core of `encodeBody` (nonempty input). -/
def bodyCore : List Trade → List Char
  | [] => []
  | [t] => encodeRow t
  | t :: ts => encodeRow t ++ '\n' :: bodyCore ts

/-- A record whose note contains a newline: `exportToCSV` quotes it, but the
line splitter of `processCSVData` cuts the quoted note in half. -/
def c1trade : Trade :=
  { id := some 1, date := "2024-01-01", tradeSetup := "Scalp", ticker := none,
    rr := "2R", pnl := some 5, activeMgmt := "yes", execution := "good",
    note := "line1\nline2" }

/-- A well-behaved record (note with a comma and quotes) for the amended
round trip. -/
def c1w : Trade :=
  { id := some 3, date := "2024-02-02", tradeSetup := "Swing", ticker := none,
    rr := "1.5R", pnl := some (-2), activeMgmt := "no", execution := "ok",
    note := "good entry, \"clean\" exit" }

/-! # Theorems -/

/-! ## Generic list and trimming lemmas -/

theorem dropWhile_dropWhile (p : Char → Bool) (l : List Char) :
    (l.dropWhile p).dropWhile p = l.dropWhile p := by
  induction l with
  | nil => rfl
  | cons c rest ih =>
    by_cases hc : p c
    · simp [List.dropWhile, hc, ih]
    · simp [List.dropWhile, hc]

theorem trimEnd_trimEnd (l : List Char) : trimEnd (trimEnd l) = trimEnd l := by
  simp [trimEnd, dropWhile_dropWhile]

/-- When the first element survives `dropWhile`, so does the first element
of the end-trimmed list: `trimEnd` of `c :: t` is `[]` or starts with `c`. -/
theorem trimEnd_cons_cases (c : Char) (t : List Char) :
    trimEnd (c :: t) = [] ∨ ∃ t', trimEnd (c :: t) = c :: t' := by
  by_cases hc : isWS c
  · by_cases he : (t.reverse.dropWhile isWS).isEmpty
    · left
      simp [trimEnd, List.reverse_cons, List.dropWhile_append, he,
        List.dropWhile_cons, hc]
    · right
      refine ⟨?_, ?_⟩
      · exact ((c :: t).reverse.dropWhile isWS).reverse.tail
      · simp only [trimEnd, List.reverse_cons, List.dropWhile_append, he,
          if_false, Bool.false_eq_true]
        rw [List.reverse_append]
        simp
  · right
    refine ⟨?_, ?_⟩
    · exact ((c :: t).reverse.dropWhile isWS).reverse.tail
    · have h1 : List.dropWhile isWS (t.reverse ++ [c]) =
          if (t.reverse.dropWhile isWS).isEmpty then List.dropWhile isWS [c]
          else t.reverse.dropWhile isWS ++ [c] := List.dropWhile_append
      simp only [trimEnd, List.reverse_cons, h1]
      by_cases he : (t.reverse.dropWhile isWS).isEmpty
      · simp [he, List.dropWhile_cons, hc]
      · simp only [he, if_false, Bool.false_eq_true]
        rw [List.reverse_append]
        simp

theorem dropWhile_trimEnd (l : List Char)
    (h : l.dropWhile isWS = l) : (trimEnd l).dropWhile isWS = trimEnd l := by
  cases l with
  | nil => rfl
  | cons c rest =>
    have hc : ¬ isWS c := by
      intro hcc
      rw [List.dropWhile_cons, if_pos hcc] at h
      have h1 : (rest.dropWhile isWS).length ≤ rest.length :=
        (List.dropWhile_suffix isWS).sublist.length_le
      have h2 := congrArg List.length h
      simp at h2
      omega
    rcases trimEnd_cons_cases c rest with h0 | ⟨t', ht'⟩
    · simp [h0]
    · rw [ht', List.dropWhile_cons, if_neg hc]

theorem trim_idem (l : List Char) : trimChars (trimChars l) = trimChars l := by
  unfold trimChars
  rw [dropWhile_trimEnd (l.dropWhile isWS) (List.dropWhile_idempotent _ _),
    trimEnd_trimEnd]


theorem dropWhile_nil_all (p : Char → Bool) (l : List Char)
    (h : l.dropWhile p = []) : ∀ c ∈ l, p c = true := by
  intro c hc
  have h2 := List.takeWhile_append_dropWhile p l
  rw [h, List.append_nil] at h2
  exact List.mem_takeWhile_imp (h2 ▸ hc)

theorem mem_of_trim_nil (l : List Char) (h : trimChars l = []) :
    ∀ c ∈ l, isWS c = true := by
  intro c hc
  have h1 : List.dropWhile isWS (l.dropWhile isWS).reverse = [] := by
    unfold trimChars trimEnd at h
    rcases e : List.dropWhile isWS (l.dropWhile isWS).reverse with _ | ⟨a, t⟩
    · rfl
    · rw [e] at h
      simp at h
  have h2 : ∀ d ∈ l.dropWhile isWS, isWS d = true := by
    intro d hd
    exact dropWhile_nil_all isWS _ h1 d (List.mem_reverse.mpr hd)
  have h3 := List.takeWhile_append_dropWhile isWS l
  rcases List.mem_append.mp (h3 ▸ hc) with hin | hin
  · exact List.mem_takeWhile_imp hin
  · exact h2 c hin

theorem trim_ne_nil_of_comma (l : List Char) (h : ',' ∈ l) :
    trimChars l ≠ [] := by
  intro hnil
  have := mem_of_trim_nil l hnil ',' h
  simp [isWS] at this

/-! ## Claim C9: decoded text fields are whitespace-trimmed -/

/-- C9: every text field of a successfully decoded CSV record (date,
tradeSetup, rr, activeMgmt, execution, note) is whitespace-trimmed by the
line parser: no resulting field has leading or trailing whitespace, even
when the corresponding CSV field text does. -/
theorem C9_parser_trims_fields (l : List Char) (t : Trade)
    (h : parseCSVLine l = some t) :
    trimChars (chars t.date) = chars t.date ∧
    trimChars (chars t.tradeSetup) = chars t.tradeSetup ∧
    trimChars (chars t.rr) = chars t.rr ∧
    trimChars (chars t.activeMgmt) = chars t.activeMgmt ∧
    trimChars (chars t.execution) = chars t.execution ∧
    trimChars (chars t.note) = chars t.note := by
  unfold parseCSVLine at h
  split at h
  · split at h
    · exact absurd h (by simp)
    · rw [Option.some_inj] at h
      subst h
      refine ⟨?_, ?_, ?_, ?_, ?_, ?_⟩ <;> exact trim_idem _
  · exact absurd h (by simp)

/-- Witness for C9 at a concrete line with padded quoted fields. -/
theorem C9_parser_trims_fields_witness :
    trimChars (chars ("2024-01-01")) = chars ("2024-01-01") ∧
    trimChars (chars ("Scalp: A")) = chars ("Scalp: A") ∧
    trimChars (chars ("1:1")) = chars ("1:1") ∧
    trimChars (chars ("N/A")) = chars ("N/A") ∧
    trimChars (chars ("A")) = chars ("A") ∧
    trimChars (chars ("hi, there")) = chars ("hi, there") :=
  C9_parser_trims_fields
    (chars ("7, 2024-01-01 ,  Scalp: A,1:1 ,5, N/A ,A,\" hi, there \""))
    ⟨some 7, "2024-01-01", "Scalp: A", none, "1:1", some 5, "N/A", "A", "hi, there"⟩
    (by decide)

/-! ## Claim C10: short documents are rejected before the header check -/

/-- C10: a document that trims and splits to fewer than two lines —
including exactly the valid header with no data rows — is rejected with the
empty-file error before the header check, imports nothing, and never yields
a successful zero/zero result. -/
theorem C10_short_document_rejected (s : TradingJournal) (text : List Char)
    (h : (splitNl (trimChars text)).length < 2) :
    processCSVData s text = (s, ImportResult.emptyFile) ∧
    ∀ imp sk : Nat, (processCSVData s text).2 ≠ ImportResult.ok imp sk := by
  have hmain : processCSVData s text = (s, ImportResult.emptyFile) := by
    unfold processCSVData
    split
    · next l0 l1 rest heq =>
      rw [heq] at h
      simp at h
      omega
    · rfl
  refine ⟨hmain, fun imp sk => ?_⟩
  rw [hmain]
  simp

/-- Witness for C10 at the document consisting of exactly the header. -/
theorem C10_short_document_rejected_witness :
    processCSVData initJournal headerChars = (initJournal, ImportResult.emptyFile) ∧
    ∀ imp sk : Nat, (processCSVData initJournal headerChars).2 ≠ ImportResult.ok imp sk :=
  C10_short_document_rejected initJournal headerChars (by decide)

/-! ## Claim C7: the header comparison (corrected: it is made after trimming) -/

/-- The counterexample document for C7: its first (non-empty) line carries a
trailing blank, so it is not character-for-character the fixed header, yet
the import is accepted and mutates the collection. -/
def c7doc : List Char :=
  chars ("ID,Date,TradeSetup,RR,PnL,ActiveMgmt,Execution,Note \n1,2024-01-01,Scalp: A,1:1,5,N/A,A,x")

/-- C7 as stated is false: a first line that differs from the header
(character for character: here by a trailing space) is not rejected — that
same import succeeds and changes the collection. -/
theorem C7_header_exact_match_counterexample :
    (splitNl (trimChars c7doc)).headD [] ≠ headerChars ∧
    (processCSVData initJournal c7doc).2 ≠ ImportResult.headerMismatch ∧
    (processCSVData initJournal c7doc).1 ≠ initJournal := by
  refine ⟨by decide, by decide, by decide⟩

/-- C7 amended: the first line is compared to the fixed header after
whitespace-trimming; a trimmed mismatch yields the single document-level
header error with the state unchanged, and a trimmed match is never
rejected by this check. -/
theorem C7_header_check_amended (s : TradingJournal) (text : List Char)
    (l0 l1 : List Char) (rest : List (List Char))
    (hsplit : splitNl (trimChars text) = l0 :: l1 :: rest) :
    (trimChars l0 ≠ headerChars → processCSVData s text = (s, ImportResult.headerMismatch)) ∧
    (trimChars l0 = headerChars → (processCSVData s text).2 ≠ ImportResult.headerMismatch) := by
  have hp : processCSVData s text =
      (if trimChars l0 ≠ headerChars then (s, ImportResult.headerMismatch)
       else ((importLines s (l1 :: rest) 0 0).1,
         ImportResult.ok (importLines s (l1 :: rest) 0 0).2.1
           (importLines s (l1 :: rest) 0 0).2.2)) := by
    unfold processCSVData
    rw [hsplit]
  constructor
  · intro hne
    rw [hp, if_pos hne]
  · intro heq
    rw [hp, if_neg (by simp [heq])]
    simp

/-- Witness for C7 amended on a concrete mismatching document. -/
theorem C7_header_check_amended_witness :
    (trimChars (chars ("bad header")) ≠ headerChars →
      processCSVData initJournal (chars ("bad header\nrow")) =
        (initJournal, ImportResult.headerMismatch)) ∧
    (trimChars (chars ("bad header")) = headerChars →
      (processCSVData initJournal (chars ("bad header\nrow"))).2 ≠
        ImportResult.headerMismatch) :=
  C7_header_check_amended initJournal (chars ("bad header\nrow"))
    (chars ("bad header")) (chars ("row")) [] (by decide)

/-! ## Claim C3: line-level validation (corrected: only emptiness is checked) -/

/-- One-step unfolding of the scanner on a cons cell. -/
theorem scanLine_cons (c : Char) (rest : List Char) (prev : Option Char)
    (inQ : Bool) (cur : List Char) :
    scanLine (c :: rest) prev inQ cur =
      if c = '"' ∧ (prev = none ∨ prev = some ',') then
        scanLine rest (some '"') true cur
      else if c = '"' ∧ inQ = true ∧ (rest.head? = none ∨ rest.head? = some ',') then
        scanLine rest (some '"') false cur
      else if c = ',' ∧ inQ = false then
        collapseQQ cur :: scanLine rest (some ',') inQ []
      else if ¬(c = '"' ∧ inQ = true ∧ rest.head? = some '"') then
        scanLine rest (some c) inQ (cur ++ [c])
      else
        match rest with
        | q :: rest2 => scanLine rest2 (some q) inQ (cur ++ [c])
        | [] => [collapseQQ (cur ++ [c])] := by
  rw [scanLine.eq_def]

theorem scanLine_no_comma (l : List Char) (prev : Option Char) (inQ : Bool)
    (cur : List Char) :
    ',' ∉ l → ∃ x, scanLine l prev inQ cur = [x] := by
  induction l, prev, inQ, cur using scanLine.induct with
  | case1 prev inQ cur => exact fun _ => ⟨collapseQQ cur, rfl⟩
  | case2 c rest prev inQ cur h ih =>
    intro hm
    rw [scanLine_cons, if_pos h]
    exact ih fun hc => hm (List.mem_cons_of_mem _ hc)
  | case3 c rest prev inQ cur h1 h2 ih =>
    intro hm
    rw [scanLine_cons, if_neg h1, if_pos h2]
    exact ih fun hc => hm (List.mem_cons_of_mem _ hc)
  | case4 c rest prev inQ cur h1 h2 h3 ih =>
    obtain ⟨hc, -⟩ := h3
    subst hc
    exact fun hm => absurd (List.mem_cons_self _ _) hm
  | case5 c rest prev inQ cur h1 h2 h3 h4 ih =>
    intro hm
    rw [scanLine_cons, if_neg h1, if_neg h2, if_neg h3, if_pos h4]
    exact ih fun hc => hm (List.mem_cons_of_mem _ hc)
  | case6 c prev inQ cur hn1 hn3 q rest2 hn2 hnn ih =>
    intro hm
    rw [scanLine_cons, if_neg hn1, if_neg hn2, if_neg hn3, if_neg hnn]
    exact ih fun hc => hm (List.mem_cons_of_mem _ (List.mem_cons_of_mem _ hc))
  | case7 c prev inQ cur h1 h2 h3 h4 =>
    exact absurd (not_not.mp h4).2.2 (by simp)

/-- A line that scans to 8 fields contains an (unquoted) comma, hence does
not trim to the empty line. -/
theorem trim_ne_nil_of_eight_fields (l : List Char)
    (i d tsu rr p am ex nt : List Char)
    (hscan : scanLine l none false [] = [i, d, tsu, rr, p, am, ex, nt]) :
    trimChars l ≠ [] := by
  have hcomma : ',' ∈ l := by
    by_contra hnc
    obtain ⟨x, hx⟩ := scanLine_no_comma l none false [] hnc
    rw [hx] at hscan
    exact absurd hscan (by simp)
  exact trim_ne_nil_of_comma l hcomma

/-- The counterexample line for C3: 8 fields, all required ones non-empty,
but the identifier and PnL texts do not parse as numbers. -/
def c3line : List Char := chars ("abc,2024-01-01,Scalp: A,1:1,xyz,N/A,A,")

/-- C3 as stated is false: on a line whose PnL field (`xyz`) does not parse
as a finite decimal and whose identifier field (`abc`) does not parse as an
integer, the parser still produces a record (with `NaN` id and `NaN` pnl),
the record is imported, and the skip count stays 0. -/
theorem C3_line_validation_counterexample :
    (∃ i d tsu rr p am ex nt, scanLine c3line none false [] = [i, d, tsu, rr, p, am, ex, nt]) ∧
    parseIntJS (chars ("abc")) = none ∧
    parseFloatJS (chars ("xyz")) = none ∧
    parseCSVLine c3line =
      some ⟨none, "2024-01-01", "Scalp: A", none, "1:1", none, "N/A", "A", ""⟩ ∧
    importLines initJournal [c3line] 0 0 =
      (⟨[⟨none, "2024-01-01", "Scalp: A", none, "1:1", none, "N/A", "A", ""⟩], 1⟩, 1, 0) := by
  refine ⟨⟨chars ("abc"), chars ("2024-01-01"), chars ("Scalp: A"), chars ("1:1"),
    chars ("xyz"), chars ("N/A"), chars ("A"), chars (""), by decide⟩,
    by decide, by decide, by decide, by decide⟩

/-- C3 amended: for a line that splits into exactly 8 fields, only
emptiness of the required fields (all but the note) is checked: if one of
them is empty the line is skipped — no record is added to the collection
and the skip count increases by exactly one.  (No numeric validation is
performed; unparseable identifier or PnL texts still yield an imported
record, as the counterexample shows.) -/
theorem C3_required_empty_skipped (l : List Char) (ls : List (List Char))
    (s : TradingJournal) (imp sk : Nat) (i d tsu rr p am ex nt : List Char)
    (hscan : scanLine l none false [] = [i, d, tsu, rr, p, am, ex, nt])
    (hreq : i = [] ∨ d = [] ∨ tsu = [] ∨ rr = [] ∨ p = [] ∨ am = [] ∨ ex = []) :
    parseCSVLine l = none ∧
    importLines s (l :: ls) imp sk = importLines s ls imp (sk + 1) := by
  have hnone : parseCSVLine l = none := by
    unfold parseCSVLine
    rw [hscan]
    simp only [if_pos hreq]
  refine ⟨hnone, ?_⟩
  conv_lhs => rw [importLines]
  rw [if_neg (trim_ne_nil_of_eight_fields l i d tsu rr p am ex nt hscan), hnone]

/-- Witness for C3 amended at a concrete line with an empty identifier field. -/
theorem C3_required_empty_skipped_witness :
    parseCSVLine (chars (",2024-01-01,Scalp: A,1:1,5,N/A,A,x")) = none ∧
    importLines initJournal [chars (",2024-01-01,Scalp: A,1:1,5,N/A,A,x")] 0 0 =
      importLines initJournal [] 0 (0 + 1) :=
  C3_required_empty_skipped (chars (",2024-01-01,Scalp: A,1:1,5,N/A,A,x")) []
    initJournal 0 0 [] (chars ("2024-01-01")) (chars ("Scalp: A")) (chars ("1:1"))
    (chars ("5")) (chars ("N/A")) (chars ("A")) (chars ("x"))
    (by decide) (Or.inl rfl)

/-! ## Claim C5: the quoting law (corrected: only the note field is escaped) -/

theorem replQQ_eq_doubledSpec (l : List Char) : replQQ l = doubledSpec l := by
  induction l with
  | nil => rfl
  | cons c rest ih =>
    by_cases hc : c = '"'
    · subst hc
      simp [replQQ, doubledSpec, ih]
    · simp [replQQ, doubledSpec, hc, ih]

/-- The escaper satisfies the quoting law: a field is quote-wrapped with
internal quotes doubled iff it contains a comma, quote or newline, and is
emitted verbatim otherwise. -/
theorem escapeCSVField_spec (s : List Char) :
    (hasSpecialB s = true → escapeCSVField s = quoteWrapSpec s) ∧
    (hasSpecialB s = false → escapeCSVField s = s) := by
  by_cases hc : (s.contains ',' = true ∨ s.contains '\n' = true ∨ s.contains '"' = true)
  · have hs : hasSpecialB s = true := by
      simp only [hasSpecialB, Bool.or_eq_true]
      rcases hc with h | h | h
      · exact Or.inl (Or.inl h)
      · exact Or.inr h
      · exact Or.inl (Or.inr h)
    refine ⟨fun _ => ?_, fun hf => absurd hs (by simp [hf])⟩
    unfold escapeCSVField quoteWrapSpec
    rw [if_pos hc, replQQ_eq_doubledSpec]
  · have hs : hasSpecialB s = false := by
      simp only [not_or, Bool.not_eq_true] at hc
      simp only [hasSpecialB, hc.1, hc.2.1, hc.2.2, Bool.or_self, Bool.or_false]
    refine ⟨fun ht => absurd ht (by simp [hs]), fun _ => ?_⟩
    unfold escapeCSVField
    rw [if_neg hc]

/-- The counterexample trade for C5: its setup field contains a comma. -/
def c5trade : Trade :=
  ⟨some 1, "2024-01-01", "a,b", none, "1:1", some 5, "N/A", "A", ""⟩

/-- C5 as stated is false: the export escapes only the note field, so a
record whose setup text contains a comma is emitted verbatim — its encoded
row is not the row in which every special field is quote-wrapped, and the
comma-containing field appears unquoted. -/
theorem C5_quoting_law_counterexample :
    hasSpecialB (chars c5trade.tradeSetup) = true ∧
    encodeRow c5trade ≠ escapeAllRow c5trade ∧
    encodeRow c5trade = chars ("1,2024-01-01,a,b,1:1,5,N/A,A,") := by
  refine ⟨by decide, by decide, by decide⟩

/-- C5 amended: the quoting law (quote-wrap with doubled internal quotes
iff the text contains a comma, quote or newline) holds for the escaper,
but `exportToCSV` applies the escaper only to the note field; the other
seven fields are emitted verbatim regardless of content. -/
theorem C5_quoting_law_amended :
    (∀ s : List Char,
      (hasSpecialB s = true → escapeCSVField s = quoteWrapSpec s) ∧
      (hasSpecialB s = false → escapeCSVField s = s)) ∧
    (∀ t : Trade, encodeRow t =
      joinComma [jnumIntRepr t.id, chars t.date, chars t.tradeSetup, chars t.rr,
        jnumRatRepr t.pnl, chars t.activeMgmt, chars t.execution,
        escapeCSVField (chars t.note)]) :=
  ⟨escapeCSVField_spec, fun _ => rfl⟩

/-! ## Reconciliation: helper lemmas -/

theorem jnumEq_eq {a b : Option Int} (h : jnumEq a b = true) :
    ∃ n : Int, a = some n ∧ b = some n := by
  cases a with
  | none => simp [jnumEq] at h
  | some x =>
    cases b with
    | none => simp [jnumEq] at h
    | some y =>
      simp [jnumEq] at h
      exact ⟨y, by rw [h], rfl⟩

theorem findIndexJ_some (p : Trade → Bool) :
    ∀ (l : List Trade) (i : Nat), findIndexJ p l = some i →
      ∃ t, l.get? i = some t ∧ p t = true := by
  intro l
  induction l with
  | nil => intro i h; simp [findIndexJ] at h
  | cons t ts ih =>
    intro i h
    by_cases hp : p t
    · simp [findIndexJ, hp] at h
      subst h
      exact ⟨t, rfl, hp⟩
    · simp [findIndexJ, hp] at h
      obtain ⟨j, hj, hij⟩ := h
      obtain ⟨u, hu, hpu⟩ := ih j hj
      exact ⟨u, by rw [← hij]; simpa using hu, hpu⟩

theorem findIndexJ_none (p : Trade → Bool) :
    ∀ l : List Trade, findIndexJ p l = none → ∀ t ∈ l, p t = false := by
  intro l
  induction l with
  | nil => intro _ t ht; simp at ht
  | cons u us ih =>
    intro h t ht
    by_cases hp : p u
    · simp [findIndexJ, hp] at h
    · simp [findIndexJ, hp] at h
      rcases List.mem_cons.mp ht with rfl | hm
      · simpa using hp
      · exact ih h t hm

/-- The two defining cases of the merge step, under the identifier
invariant: a collision reassigns the current counter value and advances the
counter; a fresh record is appended unchanged and the counter is advanced
past its id when needed. -/
theorem importStep_spec (s : TradingJournal) (tr : Trade) :
    ((s.trades.find? (fun t => jnumEq t.id tr.id)).isSome = true →
      importStep s tr = ⟨s.trades ++ [{ tr with id := some s.nextId }], s.nextId + 1⟩) ∧
    ((s.trades.find? (fun t => jnumEq t.id tr.id)).isSome = false →
      (importStep s tr).trades = s.trades ++ [tr] ∧
      (tr.id = none → (importStep s tr).nextId = s.nextId) ∧
      (∀ k : Int, tr.id = some k →
        (importStep s tr).nextId = if s.nextId ≤ k then k + 1 else s.nextId)) := by
  constructor
  · intro hfound
    unfold importStep
    rw [if_pos hfound]
    have hge : jgeB (some s.nextId) (s.nextId + 1) = false := by
      simp [jgeB]
    simp only [hge, Bool.false_eq_true, if_false]
  · intro hfree
    unfold importStep
    rw [if_neg (by simp [hfree])]
    refine ⟨rfl, ?_, ?_⟩
    · intro hid
      simp only [hid, jgeB, Bool.false_eq_true, if_false]
    · intro k hid
      simp only [hid, jgeB, Option.getD_some]
      by_cases hk : s.nextId ≤ k
      · rw [if_pos (by simpa using hk), if_pos hk]
      · rw [if_neg (by simpa using hk), if_neg hk]

/-- The merge step preserves the identifier invariant. -/
theorem importStep_inv (s : TradingJournal) (tr : Trade) (h : idInv s) :
    idInv (importStep s tr) := by
  have hs := importStep_spec s tr
  by_cases hf : (s.trades.find? (fun t => jnumEq t.id tr.id)).isSome = true
  · rw [hs.1 hf]
    intro t ht
    rcases List.mem_append.mp ht with hm | hm
    · have := h t hm
      cases hid : t.id with
      | none => simp [jltB]
      | some n =>
        rw [hid] at this
        simp only [jltB, decide_eq_true_eq] at this ⊢
        omega
    · have : t = { tr with id := some s.nextId } := by simpa using hm
      subst this
      simp [jltB]
  · have hf' : (s.trades.find? (fun t => jnumEq t.id tr.id)).isSome = false := by
      simpa using hf
    obtain ⟨htr, hnone, hsome⟩ := hs.2 hf'
    intro t ht
    rw [htr] at ht
    rcases List.mem_append.mp ht with hm | hm
    · have := h t hm
      cases hid : t.id with
      | none => simp [jltB]
      | some n =>
        rw [hid] at this
        simp only [jltB, decide_eq_true_eq] at this ⊢
        cases htid : tr.id with
        | none => rw [hnone htid]; exact this
        | some k =>
          rw [hsome k htid]
          by_cases hk : s.nextId ≤ k
          · rw [if_pos hk]; omega
          · rw [if_neg hk]; exact this
    · have : t = tr := by simpa using hm
      subst this
      cases htid : t.id with
      | none => simp [jltB]
      | some k =>
        rw [hsome k htid]
        simp only [jltB, decide_eq_true_eq]
        by_cases hk : s.nextId ≤ k
        · rw [if_pos hk]; omega
        · rw [if_neg hk]; omega

/-- The import loop preserves the identifier invariant. -/
theorem importLines_inv : ∀ (lines : List (List Char)) (s : TradingJournal)
    (imp sk : Nat), idInv s → idInv (importLines s lines imp sk).1 := by
  intro lines
  induction lines with
  | nil => intro s imp sk h; exact h
  | cons l rest ih =>
    intro s imp sk h
    unfold importLines
    by_cases hb : trimChars l = []
    · rw [if_pos hb]
      exact ih s imp sk h
    · rw [if_neg hb]
      cases hp : parseCSVLine l with
      | some tr => exact ih (importStep s tr) (imp + 1) sk (importStep_inv s tr h)
      | none => exact ih s imp (sk + 1) h

/-- A whole import preserves the identifier invariant. -/
theorem processCSVData_inv (s : TradingJournal) (text : List Char)
    (h : idInv s) : idInv (processCSVData s text).1 := by
  unfold processCSVData
  split
  · split
    · exact h
    · exact importLines_inv _ s 0 0 h
  · exact h

/-- `addTrade` (create and update paths) preserves the identifier invariant. -/
theorem addTrade_inv (s : TradingJournal) (editId : Option (Option Int))
    (today : String) (fd : FormData) (h : idInv s) :
    idInv (addTrade s editId today fd).1 := by
  unfold addTrade
  by_cases h1 : validateRRInput fd.rr
  · rw [if_neg (by simpa using h1)]
    by_cases h2 : validateFormData fd
    · rw [if_neg (by simpa using h2)]
      cases editId with
      | none =>
        intro t ht
        rcases List.mem_append.mp ht with hm | hm
        · have := h t hm
          cases hid : t.id with
          | none => simp [jltB]
          | some n =>
            rw [hid] at this
            simp only [jltB, decide_eq_true_eq] at this ⊢
            omega
        · have heq : t = ⟨some s.nextId, today, fd.tradeSetup, some fd.ticker,
              fd.rr, parseFloatJS (chars fd.pnl), fd.activeMgmt, fd.execution,
              fd.note⟩ := by simpa using hm
          subst heq
          simp [jltB]
      | some jid =>
        cases hidx : findIndexJ (fun t => jnumEq t.id jid) s.trades with
        | none => simp only [hidx]; exact h
        | some i =>
          simp only [hidx]
          obtain ⟨t0, ht0, hpt0⟩ := findIndexJ_some _ s.trades i hidx
          obtain ⟨n, hn1, hn2⟩ := jnumEq_eq hpt0
          intro t ht
          simp only at ht
          rcases List.mem_or_eq_of_mem_set ht with hm | hm
          · exact h t hm
          · subst hm
            simp only
            rw [hn2]
            have := h t0 (List.get?_mem ht0)
            rw [hn1] at this
            exact this
    · rw [if_pos (by simpa using h2)]
      exact h
  · rw [if_pos (by simpa using h1)]
    exact h

/-- `deleteTrade` preserves the identifier invariant. -/
theorem deleteTrade_inv (s : TradingJournal) (jid : Option Int) (h : idInv s) :
    idInv (deleteTrade s jid).1 := by
  unfold deleteTrade
  cases hidx : findIndexJ (fun t => jnumEq t.id jid) s.trades with
  | none => exact h
  | some i =>
    intro t ht
    exact h t (List.mem_of_mem_eraseIdx ht)

/-! ## Claim C4: the identifier invariant holds in every reachable state -/

/-- C4: in every state reachable from the initial state (empty collection,
counter 1) by create, update, delete, clear and import operations, the
counter `nextId` is strictly greater than every (integer-valued) id in the
collection. -/
theorem C4_nextId_invariant (s : TradingJournal) (h : Reachable s) : idInv s := by
  induction h with
  | init => intro t ht; simp [initJournal] at ht
  | addT editId today fd _ ih => exact addTrade_inv _ editId today fd ih
  | del jid _ ih => exact deleteTrade_inv _ jid ih
  | clear _ _ => intro t ht; simp [clearAllData, initJournal] at ht
  | imp text _ ih => exact processCSVData_inv _ text ih

/-- Witness for C4 at a concrete reachable state (one import on the initial
state). -/
theorem C4_nextId_invariant_witness :
    idInv (processCSVData initJournal
      (chars ("ID,Date,TradeSetup,RR,PnL,ActiveMgmt,Execution,Note\n9,2024-01-01,Scalp: A,1:1,5,N/A,A,x"))).1 :=
  C4_nextId_invariant _ (Reachable.imp _ Reachable.init)

/-! ## Claim C2: the reconciliation contract for one imported record -/

/-- C2: merging one decoded record (in encounter order) into a state
satisfying the identifier invariant: on a collision (its id already occurs)
the record is reassigned the current counter value — an id strictly greater
than every existing integer id and carried by no existing record — the
counter advances by one, and the pre-existing records are untouched (the
new collection is the old one with the renumbered record appended); a
record with a fresh integer id keeps it, and the counter advances to
`id + 1` exactly when `id ≥ nextId`. -/
theorem C2_merge_contract (s : TradingJournal) (tr : Trade) (hinv : idInv s) :
    ((s.trades.find? (fun t => jnumEq t.id tr.id)).isSome = true →
      importStep s tr = ⟨s.trades ++ [{ tr with id := some s.nextId }], s.nextId + 1⟩ ∧
      (∀ t ∈ s.trades, ∀ n : Int, t.id = some n → n < s.nextId) ∧
      (∀ t ∈ s.trades, t.id ≠ some s.nextId)) ∧
    ((s.trades.find? (fun t => jnumEq t.id tr.id)).isSome = false →
      (importStep s tr).trades = s.trades ++ [tr] ∧
      (∀ k : Int, tr.id = some k →
        (importStep s tr).nextId = if s.nextId ≤ k then k + 1 else s.nextId)) := by
  have hs := importStep_spec s tr
  constructor
  · intro hfound
    refine ⟨hs.1 hfound, ?_, ?_⟩
    · intro t ht n hn
      have := hinv t ht
      rw [hn] at this
      simpa [jltB] using this
    · intro t ht heq
      have := hinv t ht
      rw [heq] at this
      simp [jltB] at this
  · intro hfree
    exact ⟨(hs.2 hfree).1, (hs.2 hfree).2.2⟩

/-- Witness for C2 on a concrete colliding import. -/
theorem C2_merge_contract_witness :
    (((⟨[⟨some 1, "2024-01-01", "Scalp: A", none, "1:1", some 5, "N/A", "A", "x"⟩], 2⟩ :
        TradingJournal).trades.find?
          (fun t => jnumEq t.id (some 1))).isSome = true →
      importStep ⟨[⟨some 1, "2024-01-01", "Scalp: A", none, "1:1", some 5, "N/A", "A", "x"⟩], 2⟩
          ⟨some 1, "2024-02-02", "Swing: B", none, "2:1", some 7, "N/A", "B", "y"⟩ =
        ⟨[⟨some 1, "2024-01-01", "Scalp: A", none, "1:1", some 5, "N/A", "A", "x"⟩,
          ⟨some 2, "2024-02-02", "Swing: B", none, "2:1", some 7, "N/A", "B", "y"⟩], 3⟩ ∧
      (∀ t ∈ (⟨[⟨some 1, "2024-01-01", "Scalp: A", none, "1:1", some 5, "N/A", "A", "x"⟩], 2⟩ :
          TradingJournal).trades, ∀ n : Int, t.id = some n → n < 2) ∧
      (∀ t ∈ (⟨[⟨some 1, "2024-01-01", "Scalp: A", none, "1:1", some 5, "N/A", "A", "x"⟩], 2⟩ :
          TradingJournal).trades, t.id ≠ some 2)) ∧
    (((⟨[⟨some 1, "2024-01-01", "Scalp: A", none, "1:1", some 5, "N/A", "A", "x"⟩], 2⟩ :
        TradingJournal).trades.find?
          (fun t => jnumEq t.id (some 1))).isSome = false →
      (importStep ⟨[⟨some 1, "2024-01-01", "Scalp: A", none, "1:1", some 5, "N/A", "A", "x"⟩], 2⟩
          ⟨some 1, "2024-02-02", "Swing: B", none, "2:1", some 7, "N/A", "B", "y"⟩).trades =
        [⟨some 1, "2024-01-01", "Scalp: A", none, "1:1", some 5, "N/A", "A", "x"⟩,
         ⟨some 1, "2024-02-02", "Swing: B", none, "2:1", some 7, "N/A", "B", "y"⟩] ∧
      (∀ k : Int, (⟨some 1, "2024-02-02", "Swing: B", none, "2:1", some 7, "N/A", "B", "y"⟩ :
          Trade).id = some k →
        (importStep ⟨[⟨some 1, "2024-01-01", "Scalp: A", none, "1:1", some 5, "N/A", "A", "x"⟩], 2⟩
            ⟨some 1, "2024-02-02", "Swing: B", none, "2:1", some 7, "N/A", "B", "y"⟩).nextId =
          if 2 ≤ k then k + 1 else 2)) :=
  C2_merge_contract
    ⟨[⟨some 1, "2024-01-01", "Scalp: A", none, "1:1", some 5, "N/A", "A", "x"⟩], 2⟩
    ⟨some 1, "2024-02-02", "Swing: B", none, "2:1", some 7, "N/A", "B", "y"⟩
    (by intro t ht; simp at ht; subst ht; decide)

/-! ## Claim C8: the update contract -/

/-- C8: updating with validated field values: when a record with the given
id exists (at the first matching index), its `id` and `date` are unchanged
while every other field is replaced by the validated new values, every
other record is untouched, and the operation reports success; when no
record matches, the operation reports failure and the collection is
unchanged. -/
theorem C8_update_contract (s : TradingJournal) (jid : Option Int)
    (today : String) (fd : FormData)
    (hrr : validateRRInput fd.rr = true) (hv : validateFormData fd = true) :
    (∀ i : Nat, findIndexJ (fun t => jnumEq t.id jid) s.trades = some i →
      ∃ old, s.trades.get? i = some old ∧
        addTrade s (some jid) today fd =
          ({ s with trades := s.trades.set i (⟨old.id, old.date, fd.tradeSetup, some fd.ticker, fd.rr, parseFloatJS (chars fd.pnl), fd.activeMgmt, fd.execution, fd.note⟩ : Trade) }, true) ∧
        (∀ j : Nat, j ≠ i →
          (addTrade s (some jid) today fd).1.trades.get? j = s.trades.get? j)) ∧
    (findIndexJ (fun t => jnumEq t.id jid) s.trades = none →
      addTrade s (some jid) today fd = (s, false)) := by
  unfold addTrade
  rw [if_neg (by simpa using hrr), if_neg (by simpa using hv)]
  constructor
  · intro i hidx
    simp only [hidx]
    obtain ⟨old, hold, hp⟩ := findIndexJ_some _ _ _ hidx
    obtain ⟨n, hn1, hn2⟩ := jnumEq_eq hp
    have hjid : jid = old.id := by rw [hn1, hn2]
    have hdate : (s.trades.getD i default).date = old.date := by
      have : s.trades.getD i default = (s.trades.get? i).getD default := rfl
      rw [this, hold]
      rfl
    refine ⟨old, hold, ?_, ?_⟩
    · rw [hjid, hdate]
    · intro j hj
      simp only [List.get?_eq_getElem?]
      exact List.getElem?_set_ne (fun he => hj he.symm)
  · intro hidx
    simp only [hidx]

/-- Concrete journal for the C8 witness. -/
def c8state : TradingJournal :=
  ⟨[⟨some 1, "2024-01-01", "Scalp: A", none, "1:1", some 5, "N/A", "A", "x"⟩,
    ⟨some 2, "2024-01-02", "Swing: B", some "BTC", "3:1", some (-4), "N/A", "B", "y"⟩], 3⟩

/-- Concrete validated form data for the C8 witness. -/
def c8fd : FormData := ⟨"Swing: C", "ETH", "2:1", "7", "N/A", "C", "z"⟩

/-- Witness for C8: updating id 2 of the concrete journal. -/
theorem C8_update_contract_witness :
    (∀ i : Nat, findIndexJ (fun t => jnumEq t.id (some 2)) c8state.trades = some i →
      ∃ old, c8state.trades.get? i = some old ∧
        addTrade c8state (some (some 2)) "2024-03-03" c8fd =
          ({ c8state with trades := c8state.trades.set i (⟨old.id, old.date, c8fd.tradeSetup, some c8fd.ticker, c8fd.rr, parseFloatJS (chars c8fd.pnl), c8fd.activeMgmt, c8fd.execution, c8fd.note⟩ : Trade) }, true) ∧
        (∀ j : Nat, j ≠ i →
          (addTrade c8state (some (some 2)) "2024-03-03" c8fd).1.trades.get? j =
            c8state.trades.get? j)) ∧
    (findIndexJ (fun t => jnumEq t.id (some 2)) c8state.trades = none →
      addTrade c8state (some (some 2)) "2024-03-03" c8fd = (c8state, false)) :=
  C8_update_contract c8state (some 2) "2024-03-03" c8fd (by decide) (by decide)

/-! ## Claim C6: the aggregator -/

theorem sumPnl_go (l : List Trade) : ∀ a : Rat,
    (∀ t ∈ l, (t.pnl).isSome = true) →
    l.foldl (fun acc t => jadd acc t.pnl) (some a) = some (a + (l.map pnlV).sum) := by
  induction l with
  | nil => intro a _; simp
  | cons t r ih =>
    intro a h
    obtain ⟨v, hv⟩ := Option.isSome_iff_exists.mp (h t (List.mem_cons_self t r))
    have hrest : ∀ u ∈ r, (u.pnl).isSome = true :=
      fun u hu => h u (List.mem_cons_of_mem t hu)
    rw [List.foldl_cons]
    have hstep : jadd (some a) t.pnl = some (a + v) := by
      simp [jadd, hv]
    rw [hstep, ih (a + v) hrest]
    simp [pnlV, hv, add_assoc]

theorem sumPnl_all_some (l : List Trade)
    (h : ∀ t ∈ l, (t.pnl).isSome = true) :
    sumPnl l = some ((l.map pnlV).sum) := by
  unfold sumPnl
  rw [sumPnl_go l 0 h, zero_add]

theorem winners_filter_eq (l : List Trade) :
    l.filter (fun t => jgtZ t.pnl) = l.filter (fun t => decide (0 < pnlV t)) := by
  apply List.filter_congr
  intro t _
  cases ht : t.pnl with
  | none => simp [jgtZ, pnlV, ht]
  | some v => simp [jgtZ, pnlV, ht]

theorem losers_filter_eq (l : List Trade) :
    l.filter (fun t => jltZ t.pnl) = l.filter (fun t => decide (pnlV t < 0)) := by
  apply List.filter_congr
  intro t _
  cases ht : t.pnl with
  | none => simp [jltZ, pnlV, ht]
  | some v => simp [jltZ, pnlV, ht]

theorem winners_all_some (l : List Trade) :
    ∀ t ∈ l.filter (fun t => jgtZ t.pnl), (t.pnl).isSome = true := by
  intro t ht
  have := List.of_mem_filter ht
  cases h : t.pnl with
  | none => rw [h] at this; simp [jgtZ] at this
  | some v => rfl

theorem losers_all_some (l : List Trade) :
    ∀ t ∈ l.filter (fun t => jltZ t.pnl), (t.pnl).isSome = true := by
  intro t ht
  have := List.of_mem_filter ht
  cases h : t.pnl with
  | none => rw [h] at this; simp [jltZ] at this
  | some v => rfl

theorem sum_abs_pnl : ∀ ts : List Trade, (∀ t ∈ ts, pnlV t < 0) →
    (ts.map (fun t => |pnlV t|)).sum = -((ts.map pnlV).sum) := by
  intro ts
  induction ts with
  | nil => intro _; simp
  | cons x r ih =>
    intro h
    have hx : pnlV x < 0 := h x (List.mem_cons_self x r)
    simp only [List.map_cons, List.sum_cons]
    rw [ih (fun y hy => h y (List.mem_cons_of_mem x hy)), abs_of_neg hx]
    ring

theorem sum_nonpos_of_all_nonpos : ∀ xs : List Rat, (∀ x ∈ xs, x ≤ 0) →
    xs.sum ≤ 0 := by
  intro xs
  induction xs with
  | nil => intro _; simp
  | cons x r ih =>
    intro h
    simp only [List.sum_cons]
    have h1 := h x (List.mem_cons_self x r)
    have h2 := ih (fun y hy => h y (List.mem_cons_of_mem x hy))
    linarith

/-- The per-view aggregates agree with the spec-side definition on views
whose records all carry numeric PnL. -/
theorem calculateStatsForTrades_spec (l : List Trade)
    (h : ∀ t ∈ l, (t.pnl).isSome = true) :
    calculateStatsForTrades l = specStatsView l := by
  by_cases hl : l.length = 0
  · have hnil : l = [] := List.length_eq_zero.mp hl
    subst hnil
    rfl
  · have hcode : calculateStatsForTrades l =
        { totalPnl := sumPnl l
          totalTrades := l.length
          winRate := round (((l.filter (fun t => jgtZ t.pnl)).length : Rat) / (l.length : Rat) * 100)
          avgWin := if (l.filter (fun t => jgtZ t.pnl)).length > 0 then
              jdivN (sumPnl (l.filter (fun t => jgtZ t.pnl)))
                (l.filter (fun t => jgtZ t.pnl)).length
            else some 0
          avgLoss := if (l.filter (fun t => jltZ t.pnl)).length > 0 then
              jabs (jdivN (sumPnl (l.filter (fun t => jltZ t.pnl)))
                (l.filter (fun t => jltZ t.pnl)).length)
            else some 0 } := by
      unfold calculateStatsForTrades
      rw [if_neg hl]
    have hspec : specStatsView l =
        { totalPnl := some ((l.map pnlV).sum)
          totalTrades := l.length
          winRate := if l.length = 0 then 0 else
            round ((100 : Rat) * (((l.filter (fun t => decide (0 < pnlV t))).length : Rat) / (l.length : Rat)))
          avgWin := some (if (l.filter (fun t => decide (0 < pnlV t))).length = 0 then 0 else
            ((l.filter (fun t => decide (0 < pnlV t))).map pnlV).sum /
              ((l.filter (fun t => decide (0 < pnlV t))).length : Rat))
          avgLoss := some (if (l.filter (fun t => decide (pnlV t < 0))).length = 0 then 0 else
            ((l.filter (fun t => decide (pnlV t < 0))).map (fun t => |pnlV t|)).sum /
              ((l.filter (fun t => decide (pnlV t < 0))).length : Rat)) } := rfl
    rw [hcode, hspec]
    have hw := winners_filter_eq l
    have hlo := losers_filter_eq l
    simp only [Stats.mk.injEq]
    refine ⟨sumPnl_all_some l h, trivial, ?_, ?_, ?_⟩
    · rw [if_neg hl, hw]
      congr 1
      ring
    · rw [hw]
      by_cases hwz : (l.filter (fun t => decide (0 < pnlV t))).length = 0
      · rw [if_neg (by omega), if_pos hwz]
      · rw [if_pos (by omega), if_neg hwz]
        rw [← hw, sumPnl_all_some _ (winners_all_some l), hw]
        simp [jdivN]
    · rw [hlo]
      by_cases hlz : (l.filter (fun t => decide (pnlV t < 0))).length = 0
      · rw [if_neg (by omega), if_pos hlz]
      · rw [if_pos (by omega), if_neg hlz]
        rw [← hlo, sumPnl_all_some _ (losers_all_some l), hlo]
        have hallT : ∀ t ∈ l.filter (fun t => decide (pnlV t < 0)), pnlV t < 0 := by
          intro t ht
          have := List.of_mem_filter ht
          simpa using this
        have hall : ∀ x ∈ (l.filter (fun t => decide (pnlV t < 0))).map pnlV, x < 0 := by
          intro x hx
          obtain ⟨t, ht, rfl⟩ := List.mem_map.mp hx
          exact hallT t ht
        simp only [jdivN, jabs, Option.map_some']
        congr 1
        rw [sum_abs_pnl _ hallT]
        rw [abs_div, abs_of_nonneg (by positivity :
          (0 : Rat) ≤ ((l.filter (fun t => decide (pnlV t < 0))).length : Rat))]
        rw [abs_of_nonpos (sum_nonpos_of_all_nonpos _
          (fun x hx => le_of_lt (hall x hx)))]

/-- C6: for each of the three views (all trades; setups with the scalp
prefix; setups with the swing prefix), the aggregator returns the
spec-side values — totalPnl the sum over the view, totalTrades the view
size, winRate the rounded percentage of records with positive PnL (0 and
division-guarded for empty views), avgWin the mean winning PnL, avgLoss
the mean absolute losing PnL — and records with zero PnL belong to neither
the winning nor the losing subset (while counting toward totalTrades). -/
theorem C6_aggregator_contract (l : List Trade)
    (h : ∀ t ∈ l, (t.pnl).isSome = true) :
    calculateStats l =
      (specStatsView l,
       specStatsView (l.filter (setupStarts ("Scalp:"))),
       specStatsView (l.filter (setupStarts ("Swing:")))) ∧
    (∀ t ∈ l, t.pnl = some 0 → jgtZ t.pnl = false ∧ jltZ t.pnl = false) := by
  constructor
  · unfold calculateStats
    rw [calculateStatsForTrades_spec l h,
      calculateStatsForTrades_spec (l.filter (setupStarts ("Scalp:")))
        (fun t ht => h t (List.mem_of_mem_filter ht)),
      calculateStatsForTrades_spec (l.filter (setupStarts ("Swing:")))
        (fun t ht => h t (List.mem_of_mem_filter ht))]
  · intro t _ h0
    simp [jgtZ, jltZ, h0]

/-- The concrete collection from the spec's aggregator example. -/
def c6trades : List Trade :=
  [⟨some 1, "2024-01-01", "Scalp: W", none, "1:1", some 100, "N/A", "A", ""⟩,
   ⟨some 2, "2024-01-02", "Scalp: T", none, "1:1", some (-50), "N/A", "B", ""⟩,
   ⟨some 3, "2024-01-03", "Swing: PB", none, "2:1", some 200, "N/A", "A", ""⟩]

/-- Witness for C6 on the spec's example collection. -/
theorem C6_aggregator_contract_witness :
    calculateStats c6trades =
      (specStatsView c6trades,
       specStatsView (c6trades.filter (setupStarts ("Scalp:"))),
       specStatsView (c6trades.filter (setupStarts ("Swing:")))) ∧
    (∀ t ∈ c6trades, t.pnl = some 0 → jgtZ t.pnl = false ∧ jltZ t.pnl = false) :=
  C6_aggregator_contract c6trades (by decide)

/-! ## Digit rendering and parsing round trips (for claim C1) -/

theorem digitsF_eq_digits : ∀ fuel n : Nat, n ≤ fuel →
    digitsF fuel n = Nat.digits 10 n := by
  intro fuel
  induction fuel with
  | zero =>
    intro n hn
    have : n = 0 := by omega
    subst this
    simp [digitsF]
  | succ f ih =>
    intro n hn
    by_cases h0 : n = 0
    · subst h0; simp [digitsF]
    · have hdiv : n / 10 ≤ f := by
        have := Nat.div_lt_self (Nat.pos_of_ne_zero h0) (by norm_num : (1:Nat) < 10)
        omega
      rw [digitsF, if_neg h0, ih (n / 10) hdiv,
        Nat.digits_def' (by norm_num : (1:Nat) < 10) (Nat.pos_of_ne_zero h0)]

theorem digitVal_digitChar (d : Nat) (h : d < 10) : digitVal (digitChar d) = d := by
  interval_cases d <;> rfl

theorem digitChar_isDigit (d : Nat) (h : d < 10) : (digitChar d).isDigit = true := by
  interval_cases d <;> rfl

theorem natRepr_all_digits (n : Nat) : ∀ c ∈ natRepr n, c.isDigit = true := by
  intro c hc
  unfold natRepr at hc
  by_cases h0 : n = 0
  · rw [if_pos h0] at hc
    simp at hc
    subst hc
    rfl
  · rw [if_neg h0] at hc
    obtain ⟨d, hd, rfl⟩ := List.mem_map.mp hc
    rw [digitsF_eq_digits n n le_rfl] at hd
    exact digitChar_isDigit d
      (Nat.digits_lt_base (by norm_num) (List.mem_reverse.mp hd))

theorem natRepr_ne_nil (n : Nat) : natRepr n ≠ [] := by
  unfold natRepr
  by_cases h0 : n = 0
  · rw [if_pos h0]; simp
  · rw [if_neg h0]
    simp only [ne_eq, List.map_eq_nil_iff, List.reverse_eq_nil_iff]
    rw [digitsF_eq_digits n n le_rfl]
    exact Nat.digits_ne_nil_iff_ne_zero.mpr h0

theorem isDigit_props (c : Char) (h : c.isDigit = true) :
    c ≠ ',' ∧ c ≠ '"' ∧ c ≠ '\n' ∧ c ≠ '-' ∧ c ≠ '+' ∧ c ≠ '.' ∧ c ≠ 'N' ∧
      isWS c = false := by
  refine ⟨fun e => absurd (e ▸ h) (by decide), fun e => absurd (e ▸ h) (by decide),
    fun e => absurd (e ▸ h) (by decide), fun e => absurd (e ▸ h) (by decide),
    fun e => absurd (e ▸ h) (by decide), fun e => absurd (e ▸ h) (by decide),
    fun e => absurd (e ▸ h) (by decide), ?_⟩
  have h1 : c ≠ ' ' := fun e => absurd (e ▸ h) (by decide)
  have h2 : c ≠ '\t' := fun e => absurd (e ▸ h) (by decide)
  have h3 : c ≠ '\n' := fun e => absurd (e ▸ h) (by decide)
  have h4 : c ≠ '\r' := fun e => absurd (e ▸ h) (by decide)
  simp [isWS, h1, h2, h3, h4]

theorem parseNatD_go : ∀ (cs : List Char) (acc : Nat),
    cs.foldl (fun a c => a * 10 + digitVal c) acc =
      acc * 10 ^ cs.length + Nat.ofDigits 10 ((cs.map digitVal).reverse) := by
  intro cs
  induction cs with
  | nil => intro acc; simp [Nat.ofDigits]
  | cons c cs ih =>
    intro acc
    simp only [List.foldl_cons, List.map_cons, List.reverse_cons, List.length_cons]
    rw [ih, Nat.ofDigits_append]
    simp only [List.length_reverse, List.length_map, Nat.ofDigits_singleton]
    ring

theorem parseNatD_natRepr (n : Nat) : parseNatD (natRepr n) = n := by
  unfold parseNatD
  rw [parseNatD_go, zero_mul, zero_add]
  unfold natRepr
  by_cases h0 : n = 0
  · rw [if_pos h0]; subst h0; decide
  · rw [if_neg h0, digitsF_eq_digits n n le_rfl]
    rw [List.map_map]
    have hmap : (Nat.digits 10 n).reverse.map (digitVal ∘ digitChar) =
        (Nat.digits 10 n).reverse := by
      conv_rhs => rw [← List.map_id ((Nat.digits 10 n).reverse)]
      apply List.map_congr_left
      intro d hd
      exact digitVal_digitChar d
        (Nat.digits_lt_base (by norm_num) (List.mem_reverse.mp hd))
    rw [hmap, List.reverse_reverse, Nat.ofDigits_digits]

theorem dropWhile_cons_neg (l : List Char) (c : Char) (h : isWS c = false) :
    (c :: l).dropWhile isWS = c :: l := by
  simp [List.dropWhile_cons, h]

theorem splitSign_other (c : Char) (r : List Char) (h1 : c ≠ '-') (h2 : c ≠ '+') :
    splitSign (c :: r) = (false, c :: r) := by
  unfold splitSign
  split
  · next heq =>
    injection heq with h _
    exact absurd h h1
  · next heq =>
    injection heq with h _
    exact absurd h h2
  · rfl

theorem parseIntJS_view (l : List Char) : parseIntJS l =
    (if ((splitSign (l.dropWhile isWS)).2.takeWhile Char.isDigit) = [] then none
     else some (if (splitSign (l.dropWhile isWS)).1 = true
       then -(parseNatD ((splitSign (l.dropWhile isWS)).2.takeWhile Char.isDigit) : Int)
       else (parseNatD ((splitSign (l.dropWhile isWS)).2.takeWhile Char.isDigit) : Int))) := rfl

theorem parseIntJS_natRepr_core (n : Nat) :
    parseIntJS (natRepr n) = some (n : Int) := by
  obtain ⟨c, r, hcr⟩ : ∃ c r, natRepr n = c :: r := by
    cases hn : natRepr n with
    | nil => exact absurd hn (natRepr_ne_nil n)
    | cons c r => exact ⟨c, r, rfl⟩
  have hdig : ∀ x ∈ natRepr n, x.isDigit = true := natRepr_all_digits n
  have hc : c.isDigit = true := hdig c (by rw [hcr]; exact List.mem_cons_self _ _)
  have hprops := isDigit_props c hc
  rw [parseIntJS_view, hcr, dropWhile_cons_neg r c hprops.2.2.2.2.2.2.2,
    splitSign_other c r hprops.2.2.2.1 hprops.2.2.2.2.1]
  simp only
  rw [List.takeWhile_eq_self_iff.mpr (by rw [← hcr]; exact hdig)]
  rw [if_neg (by rw [← hcr]; exact natRepr_ne_nil n)]
  rw [if_neg (by simp)]
  rw [← hcr, parseNatD_natRepr]

theorem parseIntJS_intRepr (x : Int) : parseIntJS (intRepr x) = some x := by
  by_cases hx : x < 0
  · unfold intRepr
    rw [if_pos hx]
    rw [parseIntJS_view]
    have h1 : isWS '-' = false := by decide
    rw [List.singleton_append, dropWhile_cons_neg _ '-' h1]
    have h2 : splitSign ('-' :: natRepr x.natAbs) = (true, natRepr x.natAbs) := rfl
    rw [h2]
    simp only
    rw [List.takeWhile_eq_self_iff.mpr (natRepr_all_digits x.natAbs)]
    rw [if_neg (natRepr_ne_nil x.natAbs)]
    simp only [if_true, parseNatD_natRepr]
    congr 1
    omega
  · unfold intRepr
    rw [if_neg hx]
    rw [List.nil_append, parseIntJS_natRepr_core x.natAbs]
    congr 1
    omega

/-! ## Finite decimal expansions: factor extraction -/

theorem pSplitF_spec : ∀ (fuel p n : Nat), 2 ≤ p → n ≠ 0 → n ≤ fuel →
    n = p ^ (pSplitF fuel p n).1 * (pSplitF fuel p n).2 ∧
      ¬ p ∣ (pSplitF fuel p n).2 := by
  intro fuel
  induction fuel with
  | zero => intro p n _ hn hf; omega
  | succ f ih =>
    intro p n hp hn hf
    by_cases hd : p ∣ n
    · have hcond : 2 ≤ p ∧ p ∣ n ∧ n ≠ 0 := ⟨hp, hd, hn⟩
      have hq : n / p ≠ 0 := by
        obtain ⟨c, rfl⟩ := hd
        have hc : c ≠ 0 := by rintro rfl; simp at hn
        rw [Nat.mul_div_cancel_left c (by omega)]
        exact hc
      have hlt : n / p < n := Nat.div_lt_self (Nat.pos_of_ne_zero hn) hp
      have hrec := ih p (n / p) hp hq (by omega)
      rw [pSplitF, if_pos hcond]
      simp only
      refine ⟨?_, hrec.2⟩
      have hmul : p * (n / p) = n := Nat.mul_div_cancel' hd
      calc n = p * (n / p) := hmul.symm
        _ = p * (p ^ (pSplitF f p (n / p)).1 * (pSplitF f p (n / p)).2) := by
            rw [← hrec.1]
        _ = p ^ ((pSplitF f p (n / p)).1 + 1) * (pSplitF f p (n / p)).2 := by ring
    · rw [pSplitF, if_neg (by tauto)]
      exact ⟨by simp, hd⟩

theorem pCount_pRem_spec (p n : Nat) (hp : 2 ≤ p) (hn : n ≠ 0) :
    n = p ^ pCount p n * pRem p n ∧ ¬ p ∣ pRem p n :=
  pSplitF_spec n p n hp hn le_rfl

theorem pow_mul_uniq (p : Nat) (hp : 2 ≤ p) :
    ∀ (k k' m m' : Nat), ¬ p ∣ m → ¬ p ∣ m' → p ^ k * m = p ^ k' * m' →
      k = k' ∧ m = m' := by
  intro k
  induction k with
  | zero =>
    intro k' m m' hm hm' heq
    cases k' with
    | zero => simpa using heq
    | succ j =>
      exfalso
      apply hm
      rw [pow_zero, one_mul] at heq
      exact ⟨p ^ j * m', by rw [heq, pow_succ]; ring⟩
  | succ j ih =>
    intro k' m m' hm hm' heq
    cases k' with
    | zero =>
      exfalso
      apply hm'
      rw [pow_zero, one_mul] at heq
      exact ⟨p ^ j * m, by rw [← heq, pow_succ]; ring⟩
    | succ j' =>
      have hp0 : p ≠ 0 := by omega
      have heq' : p ^ j * m = p ^ j' * m' := by
        have h1 : p * (p ^ j * m) = p * (p ^ j' * m') := by
          rw [pow_succ] at heq
          rw [pow_succ] at heq
          calc p * (p ^ j * m) = p ^ j * p * m := by ring
            _ = p ^ j' * p * m' := heq
            _ = p * (p ^ j' * m') := by ring
        exact Nat.eq_of_mul_eq_mul_left (by omega) h1
      obtain ⟨hk, hm⟩ := ih j' m m' hm hm' heq'
      exact ⟨by omega, hm⟩

theorem den_dvd_pow10 (q : Rat) (h : isDec q = true) :
    q.den ∣ 10 ^ decScale q := by
  have hden : q.den ≠ 0 := q.den_nz
  obtain ⟨h2, h2d⟩ := pCount_pRem_spec 2 q.den (by norm_num) hden
  have hr2 : pRem 2 q.den ≠ 0 := by
    intro hz
    rw [hz, mul_zero] at h2
    exact hden h2
  obtain ⟨h5, h5d⟩ := pCount_pRem_spec 5 (pRem 2 q.den) (by norm_num) hr2
  have hone : pRem 5 (pRem 2 q.den) = 1 := by
    simpa [isDec] using h
  rw [hone, mul_one] at h5
  rw [h5] at h2
  -- h2 : q.den = 2 ^ a * 5 ^ b' with a = pCount 2 q.den, b' = pCount 5 (pRem 2 q.den)
  obtain ⟨h5den, h5dden⟩ := pCount_pRem_spec 5 q.den (by norm_num) hden
  have hnd5 : ¬ (5 : Nat) ∣ 2 ^ pCount 2 q.den := by
    intro hdvd
    have hp5 : Nat.Prime 5 := by norm_num
    have := hp5.dvd_of_dvd_pow hdvd
    omega
  have huniq := pow_mul_uniq 5 (by norm_num)
    (pCount 5 (pRem 2 q.den)) (pCount 5 q.den)
    (2 ^ pCount 2 q.den) (pRem 5 q.den) hnd5 h5dden
    (by rw [mul_comm (5 ^ pCount 5 (pRem 2 q.den)) _, ← h2]; exact h5den)
  have hb : pCount 5 (pRem 2 q.den) = pCount 5 q.den := huniq.1
  rw [hb] at h2
  have h10 : (10 : Nat) ^ decScale q = 2 ^ decScale q * 5 ^ decScale q := by
    rw [← Nat.mul_pow]
  rw [h2, h10]
  have hle1 : pCount 2 q.den ≤ decScale q := le_max_left _ _
  have hle2 : pCount 5 q.den ≤ decScale q := le_max_right _ _
  exact Nat.mul_dvd_mul (Nat.pow_dvd_pow 2 hle1) (Nat.pow_dvd_pow 5 hle2)

theorem decMant_eq (q : Rat) (h : isDec q = true) :
    ((decMant q : Int) : Rat) / ((10 : Rat) ^ decScale q) = q := by
  have hd := den_dvd_pow10 q h
  have hden0 : ((q.den : Nat) : Rat) ≠ 0 :=
    (Nat.cast_ne_zero (R := Rat)).mpr q.den_nz
  have hInt : decMant q * (q.den : Int) = q.num * (10 : Int) ^ decScale q := by
    unfold decMant
    have hmul : ((10 ^ decScale q / q.den : Nat) : Int) * ((q.den : Nat) : Int) =
        ((10 ^ decScale q : Nat) : Int) := by
      exact_mod_cast congrArg (fun z : Nat => (z : Int)) (Nat.div_mul_cancel hd)
    calc q.num * ((10 ^ decScale q / q.den : Nat) : Int) * ((q.den : Nat) : Int)
        = q.num * (((10 ^ decScale q / q.den : Nat) : Int) * ((q.den : Nat) : Int)) := by ring
      _ = q.num * ((10 ^ decScale q : Nat) : Int) := by rw [hmul]
      _ = q.num * (10 : Int) ^ decScale q := by push_cast; ring
  rw [div_eq_iff (by positivity : ((10 : Rat) ^ decScale q) ≠ 0)]
  have hQ := congrArg (fun z : Int => (z : Rat)) hInt
  push_cast at hQ
  apply mul_right_cancel₀ hden0
  rw [hQ]
  rw [mul_comm q ((10 : Rat) ^ decScale q), mul_assoc, Rat.mul_den_eq_num]
  ring

theorem parseFloatJS_view (l : List Char) : parseFloatJS l =
    (match ((splitSign (l.dropWhile isWS)).2.drop
        (((splitSign (l.dropWhile isWS)).2.takeWhile Char.isDigit).length)) with
     | '.' :: r2 =>
       if ((splitSign (l.dropWhile isWS)).2.takeWhile Char.isDigit) = [] ∧
           r2.takeWhile Char.isDigit = [] then none
       else some (if (splitSign (l.dropWhile isWS)).1 = true
         then -((parseNatD ((splitSign (l.dropWhile isWS)).2.takeWhile Char.isDigit) : Rat) +
             (parseNatD (r2.takeWhile Char.isDigit) : Rat) /
               (10 : Rat) ^ (r2.takeWhile Char.isDigit).length)
         else ((parseNatD ((splitSign (l.dropWhile isWS)).2.takeWhile Char.isDigit) : Rat) +
             (parseNatD (r2.takeWhile Char.isDigit) : Rat) /
               (10 : Rat) ^ (r2.takeWhile Char.isDigit).length))
     | _ =>
       if ((splitSign (l.dropWhile isWS)).2.takeWhile Char.isDigit) = [] then none
       else some (if (splitSign (l.dropWhile isWS)).1 = true
         then -(((parseNatD ((splitSign (l.dropWhile isWS)).2.takeWhile Char.isDigit) : Nat)) : Rat)
         else (((parseNatD ((splitSign (l.dropWhile isWS)).2.takeWhile Char.isDigit) : Nat)) : Rat))) := rfl

theorem takeWhile_append_stop (p : Char → Bool) :
    ∀ (xs : List Char) (y : Char) (rest : List Char),
    (∀ x ∈ xs, p x = true) → p y = false →
    (xs ++ y :: rest).takeWhile p = xs := by
  intro xs
  induction xs with
  | nil => intro y rest _ hy; simp [List.takeWhile_cons, hy]
  | cons x xs ih =>
    intro y rest hx hy
    have hhead : p x = true := hx x (List.mem_cons_self _ _)
    simp only [List.cons_append, List.takeWhile_cons, hhead, if_true]
    rw [ih y rest (fun z hz => hx z (List.mem_cons_of_mem _ hz)) hy]

theorem parseNatD_replicate_zero :
    ∀ (j : Nat) (X : List Char), parseNatD (List.replicate j '0' ++ X) = parseNatD X := by
  intro j
  induction j with
  | zero => intro X; rfl
  | succ i ih =>
    intro X
    rw [List.replicate_succ, List.cons_append]
    unfold parseNatD
    simp only [List.foldl_cons]
    exact ih X

theorem padZeros_all_digits (k : Nat) (l : List Char)
    (h : ∀ c ∈ l, c.isDigit = true) : ∀ c ∈ padZeros k l, c.isDigit = true := by
  intro c hc
  unfold padZeros at hc
  rcases List.mem_append.mp hc with hm | hm
  · have : c = '0' := List.eq_of_mem_replicate hm
    subst this
    rfl
  · exact h c hm

theorem padZeros_length (k : Nat) (l : List Char) (h : l.length ≤ k) :
    (padZeros k l).length = k := by
  unfold padZeros
  simp
  omega

theorem parseNatD_padZeros (k : Nat) (l : List Char) :
    parseNatD (padZeros k l) = parseNatD l :=
  parseNatD_replicate_zero (k - l.length) l

theorem natRepr_length_le (n k : Nat) (hk : 1 ≤ k) (h : n < 10 ^ k) :
    (natRepr n).length ≤ k := by
  unfold natRepr
  by_cases h0 : n = 0
  · rw [if_pos h0]; simpa using hk
  · rw [if_neg h0]
    simp only [List.length_map, List.length_reverse]
    rw [digitsF_eq_digits n n le_rfl]
    rw [Nat.digits_len 10 n (by norm_num) h0]
    have := Nat.log_lt_of_lt_pow h0 h
    omega

theorem splitSign_of_digit_head (x : Char) (r : List Char) (hx : x.isDigit = true) :
    splitSign (x :: r) = (false, x :: r) :=
  splitSign_other x r (isDigit_props x hx).2.2.2.1 (isDigit_props x hx).2.2.2.2.1

theorem parseFloat_core0 (l : List Char) (neg : Bool) (a : Nat)
    (hsplit : splitSign (l.dropWhile isWS) = (neg, natRepr a)) :
    parseFloatJS l = some (if neg then -((a : Nat) : Rat) else ((a : Nat) : Rat)) := by
  rw [parseFloatJS_view, hsplit]
  simp only
  rw [List.takeWhile_eq_self_iff.mpr (natRepr_all_digits a), List.drop_length]
  simp only
  rw [if_neg (natRepr_ne_nil a), parseNatD_natRepr]

theorem parseFloat_core (l : List Char) (neg : Bool) (i f k : Nat)
    (_hk : 1 ≤ k) (hflen : (natRepr f).length ≤ k)
    (hsplit : splitSign (l.dropWhile isWS) =
      (neg, natRepr i ++ '.' :: padZeros k (natRepr f))) :
    parseFloatJS l = some (if neg
      then -(((i : Nat) : Rat) + ((f : Nat) : Rat) / (10 : Rat) ^ k)
      else (((i : Nat) : Rat) + ((f : Nat) : Rat) / (10 : Rat) ^ k)) := by
  rw [parseFloatJS_view, hsplit]
  simp only
  rw [takeWhile_append_stop Char.isDigit _ '.' _ (natRepr_all_digits i) (by decide)]
  rw [List.drop_left]
  simp only
  rw [List.takeWhile_eq_self_iff.mpr (padZeros_all_digits k _ (natRepr_all_digits f))]
  rw [if_neg (by simp [natRepr_ne_nil i])]
  rw [parseNatD_natRepr, parseNatD_padZeros, parseNatD_natRepr,
    padZeros_length k _ hflen]

theorem ratRepr_view (q : Rat) : ratRepr q =
    (if decMant q < 0 then ['-'] else []) ++
      (if decScale q = 0 then natRepr (decMant q).natAbs
       else natRepr ((decMant q).natAbs / 10 ^ decScale q) ++
         '.' :: padZeros (decScale q) (natRepr ((decMant q).natAbs % 10 ^ decScale q))) := by
  simp only [ratRepr]
  by_cases hk0 : decScale q = 0
  · rw [if_pos hk0, if_pos hk0]
  · rw [if_neg hk0, if_neg hk0, List.append_assoc]

theorem natRepr_sign_view (a : Nat) (rest : List Char) :
    (natRepr a ++ rest).dropWhile isWS = natRepr a ++ rest ∧
      splitSign (natRepr a ++ rest) = (false, natRepr a ++ rest) := by
  obtain ⟨c, r, hcr⟩ : ∃ c r, natRepr a = c :: r := by
    cases hn : natRepr a with
    | nil => exact absurd hn (natRepr_ne_nil a)
    | cons c r => exact ⟨c, r, rfl⟩
  have hc : c.isDigit = true :=
    natRepr_all_digits a c (by rw [hcr]; exact List.mem_cons_self _ _)
  rw [hcr, List.cons_append]
  exact ⟨dropWhile_cons_neg _ c (isDigit_props c hc).2.2.2.2.2.2.2,
    splitSign_of_digit_head c (r ++ rest) hc⟩

theorem div_mod_arith (a k : Nat) :
    ((a / 10 ^ k : Nat) : Rat) + ((a % 10 ^ k : Nat) : Rat) / (10 : Rat) ^ k =
      ((a : Nat) : Rat) / (10 : Rat) ^ k := by
  have hnat2 : a / 10 ^ k * 10 ^ k + a % 10 ^ k = a := by
    rw [mul_comm]
    exact Nat.div_add_mod a (10 ^ k)
  have hpow : ((10 : Rat)) ^ k ≠ 0 := by positivity
  rw [eq_div_iff hpow, add_mul, div_mul_cancel₀ _ hpow]
  exact_mod_cast hnat2

theorem int_cast_neg_natAbs (m : Int) (h : m < 0) :
    ((m : Int) : Rat) = -(((m.natAbs : Nat) : Rat)) := by
  have h1 : m = -((m.natAbs : Nat) : Int) := by omega
  have h2 : ((m : Int) : Rat) = ((-((m.natAbs : Nat) : Int) : Int) : Rat) := by
    exact_mod_cast congrArg (fun z : Int => (z : Rat)) h1
  rw [h2, Int.cast_neg, Int.cast_natCast]

theorem int_cast_natAbs (m : Int) (h : ¬ m < 0) :
    ((m : Int) : Rat) = ((m.natAbs : Nat) : Rat) := by
  have h1 : m = ((m.natAbs : Nat) : Int) := by omega
  have h2 : ((m : Int) : Rat) = ((((m.natAbs : Nat) : Int) : Int) : Rat) := by
    exact_mod_cast congrArg (fun z : Int => (z : Rat)) h1
  rw [h2, Int.cast_natCast]

theorem parseFloatJS_ratRepr (q : Rat) (h : isDec q = true) :
    parseFloatJS (ratRepr q) = some q := by
  have hqeq := decMant_eq q h
  have hview := ratRepr_view q
  set k := decScale q with hkdef
  set m := decMant q with hmdef
  by_cases hk0 : k = 0
  · rw [hk0, pow_zero, div_one] at hqeq
    by_cases hneg : m < 0
    · have hrr : ratRepr q = '-' :: natRepr m.natAbs := by
        rw [hview, if_pos hneg, if_pos hk0]
        rfl
      have hsplit : splitSign ((ratRepr q).dropWhile isWS) =
          (true, natRepr m.natAbs) := by
        rw [hrr, dropWhile_cons_neg _ '-' (by decide)]
        rfl
      rw [parseFloat_core0 _ true _ hsplit]
      simp only [if_true]
      congr 1
      rw [← hqeq]
      exact (int_cast_neg_natAbs m hneg).symm
    · have hrr : ratRepr q = natRepr m.natAbs := by
        rw [hview, if_neg hneg, if_pos hk0, List.nil_append]
      have hv := natRepr_sign_view m.natAbs []
      rw [List.append_nil] at hv
      have hsplit : splitSign ((ratRepr q).dropWhile isWS) =
          (false, natRepr m.natAbs) := by
        rw [hrr, hv.1]
        exact hv.2
      rw [parseFloat_core0 _ false _ hsplit]
      simp only [Bool.false_eq_true, if_false]
      congr 1
      rw [← hqeq]
      exact (int_cast_natAbs m hneg).symm
  · have hk1 : 1 ≤ k := Nat.pos_of_ne_zero hk0
    have hlen : (natRepr (m.natAbs % 10 ^ k)).length ≤ k :=
      natRepr_length_le _ _ hk1 (Nat.mod_lt _ (by positivity))
    by_cases hneg : m < 0
    · have hrr : ratRepr q = '-' ::
          (natRepr (m.natAbs / 10 ^ k) ++
            '.' :: padZeros k (natRepr (m.natAbs % 10 ^ k))) := by
        rw [hview, if_pos hneg, if_neg hk0]
        rfl
      have hsplit : splitSign ((ratRepr q).dropWhile isWS) =
          (true, natRepr (m.natAbs / 10 ^ k) ++
            '.' :: padZeros k (natRepr (m.natAbs % 10 ^ k))) := by
        rw [hrr, dropWhile_cons_neg _ '-' (by decide)]
        rfl
      rw [parseFloat_core _ true _ _ _ hk1 hlen hsplit]
      simp only [if_true]
      congr 1
      rw [div_mod_arith, ← hqeq, int_cast_neg_natAbs m hneg]
      ring
    · have hrr : ratRepr q =
          natRepr (m.natAbs / 10 ^ k) ++
            '.' :: padZeros k (natRepr (m.natAbs % 10 ^ k)) := by
        rw [hview, if_neg hneg, if_neg hk0, List.nil_append]
      have hv := natRepr_sign_view (m.natAbs / 10 ^ k)
        ('.' :: padZeros k (natRepr (m.natAbs % 10 ^ k)))
      have hsplit : splitSign ((ratRepr q).dropWhile isWS) =
          (false, natRepr (m.natAbs / 10 ^ k) ++
            '.' :: padZeros k (natRepr (m.natAbs % 10 ^ k))) := by
        rw [hrr, hv.1]
        exact hv.2
      rw [parseFloat_core _ false _ _ _ hk1 hlen hsplit]
      simp only [Bool.false_eq_true, if_false]
      congr 1
      rw [div_mod_arith, ← hqeq, int_cast_natAbs m hneg]

/-! ## Round trips at the level of JS number renderings -/

theorem parse_jnumIntRepr (x : Option Int) : parseIntJS (jnumIntRepr x) = x := by
  cases x with
  | none => decide
  | some n => exact parseIntJS_intRepr n

theorem parse_jnumRatRepr (x : Option Rat) (h : pnlOkB x = true) :
    parseFloatJS (jnumRatRepr x) = x := by
  cases x with
  | none => decide
  | some q => exact parseFloatJS_ratRepr q (by simpa [pnlOkB] using h)

theorem jnumIntRepr_ne_nil (x : Option Int) : jnumIntRepr x ≠ [] := by
  cases x with
  | none => decide
  | some n =>
    show intRepr n ≠ []
    unfold intRepr
    by_cases hn : n < 0
    · rw [if_pos hn]; simp
    · rw [if_neg hn, List.nil_append]; exact natRepr_ne_nil _

theorem jnumRatRepr_ne_nil (x : Option Rat) : jnumRatRepr x ≠ [] := by
  cases x with
  | none => decide
  | some q =>
    show ratRepr q ≠ []
    rw [ratRepr_view]
    by_cases hneg : decMant q < 0
    · rw [if_pos hneg]; simp
    · rw [if_neg hneg, List.nil_append]
      by_cases hk0 : decScale q = 0
      · rw [if_pos hk0]; exact natRepr_ne_nil _
      · rw [if_neg hk0]
        simp [natRepr_ne_nil]

/-- Characters a rendered number can contain never collide with the CSV
delimiters, quotes, newlines or whitespace. -/
theorem numChar_plain (c : Char)
    (h : c.isDigit = true ∨ c = '-' ∨ c = '.' ∨ c = 'N' ∨ c = 'a') :
    c ≠ ',' ∧ c ≠ '"' ∧ c ≠ '\n' ∧ isWS c = false := by
  rcases h with h | h | h | h | h
  · have := isDigit_props c h
    exact ⟨this.1, this.2.1, this.2.2.1, this.2.2.2.2.2.2.2⟩
  all_goals subst h
  all_goals refine ⟨by decide, by decide, by decide, by decide⟩

theorem jnumIntRepr_chars (x : Option Int) :
    ∀ c ∈ jnumIntRepr x, c ≠ ',' ∧ c ≠ '"' ∧ c ≠ '\n' ∧ isWS c = false := by
  intro c hc
  apply numChar_plain
  cases x with
  | none =>
    simp [jnumIntRepr] at hc
    rcases hc with rfl | rfl | rfl <;> simp
  | some n =>
    have hc2 : c ∈ (if n < 0 then ['-'] else []) ++ natRepr n.natAbs := hc
    rcases List.mem_append.mp hc2 with hm | hm
    · right; left
      by_cases hn : n < 0
      · rw [if_pos hn] at hm; simpa using hm
      · rw [if_neg hn] at hm; simp at hm
    · exact Or.inl (natRepr_all_digits _ c hm)

theorem jnumRatRepr_chars (x : Option Rat) :
    ∀ c ∈ jnumRatRepr x, c ≠ ',' ∧ c ≠ '"' ∧ c ≠ '\n' ∧ isWS c = false := by
  intro c hc
  apply numChar_plain
  cases x with
  | none =>
    simp [jnumRatRepr] at hc
    rcases hc with rfl | rfl | rfl <;> simp
  | some q =>
    have hc' : c ∈ ratRepr q := hc
    rw [ratRepr_view] at hc'
    rcases List.mem_append.mp hc' with hm | hm
    · right; left
      by_cases hneg : decMant q < 0
      · rw [if_pos hneg] at hm; simpa using hm
      · rw [if_neg hneg] at hm; simp at hm
    · by_cases hk0 : decScale q = 0
      · rw [if_pos hk0] at hm
        exact Or.inl (natRepr_all_digits _ c hm)
      · rw [if_neg hk0] at hm
        rcases List.mem_append.mp hm with hm2 | hm2
        · exact Or.inl (natRepr_all_digits _ c hm2)
        · rcases List.mem_cons.mp hm2 with rfl | hm3
          · right; right; left; rfl
          · exact Or.inl (padZeros_all_digits _ _ (natRepr_all_digits _) c hm3)

/-! ## Scanner lemmas for the round trip -/

theorem collapseQQ_cons_ne (c : Char) (r : List Char) (hc : c ≠ '"') :
    collapseQQ (c :: r) = c :: collapseQQ r := by
  cases r with
  | nil => simp [collapseQQ]
  | cons d r' =>
    rw [collapseQQ]
    intro rest1 hc1 _
    exact absurd hc1 hc

theorem collapseQQ_no_quote : ∀ l : List Char, (∀ c ∈ l, c ≠ '"') →
    collapseQQ l = l := by
  intro l
  induction l with
  | nil => intro _; rfl
  | cons c r ih =>
    intro h
    rw [collapseQQ_cons_ne c r (h c (List.mem_cons_self _ _)),
      ih (fun d hd => h d (List.mem_cons_of_mem _ hd))]

theorem qok_cons_ne (p c : Char) (rest : List Char) (hc : c ≠ '"') :
    qok p (c :: rest) = qok c rest := by
  simp [qok, hc]

theorem qok_cons_quote (p : Char) (rest : List Char) :
    qok p ('"' :: rest) =
      ((rest.head? != some '"') && (!(p == ',' && rest.head? == some ',')) &&
        qok '"' rest) := by
  simp [qok]

theorem collapseQQ_of_qok : ∀ (ns : List Char) (pv : Char),
    qok pv ns = true → collapseQQ ns = ns := by
  intro ns
  induction ns with
  | nil => intro _ _; rfl
  | cons c rest ih =>
    intro pv h
    by_cases hc : c = '"'
    · subst hc
      rw [qok_cons_quote] at h
      simp only [Bool.and_eq_true, bne_iff_ne, ne_eq] at h
      obtain ⟨⟨h1, _⟩, h3⟩ := h
      cases rest with
      | nil => simp [collapseQQ]
      | cons d r' =>
        have hd : d ≠ '"' := by
          intro hdq
          exact h1 (by rw [hdq]; rfl)
        rw [show collapseQQ ('"' :: d :: r') = '"' :: collapseQQ (d :: r') from by
          rw [collapseQQ]
          intro rest1 _ he
          injection he with he1 _
          exact hd he1]
        rw [ih '"' h3]
    · rw [collapseQQ_cons_ne c rest hc, qok_cons_ne pv c rest hc] at *
      rw [ih c h]

/-- Scanning a field free of commas and quotes, followed by a comma: the
field is pushed and the scan resumes after the comma. -/
theorem scan_plain_field : ∀ (f : List Char) (rest cur : List Char) (prev : Option Char),
    (∀ c ∈ f, c ≠ ',' ∧ c ≠ '"') →
    scanLine (f ++ ',' :: rest) prev false cur =
      collapseQQ (cur ++ f) :: scanLine rest (some ',') false [] := by
  intro f
  induction f with
  | nil =>
    intro rest cur prev _
    rw [List.nil_append, scanLine_cons]
    rw [if_neg (by simp), if_neg (by simp), if_pos (by simp)]
    rw [List.append_nil]
  | cons c f' ih =>
    intro rest cur prev h
    have hc := h c (List.mem_cons_self _ _)
    rw [List.cons_append, scanLine_cons]
    rw [if_neg (by simp [hc.2]), if_neg (by simp [hc.2]),
      if_neg (by simp [hc.1]), if_pos (by simp [hc.2])]
    rw [ih rest (cur ++ [c]) (some c) (fun d hd => h d (List.mem_cons_of_mem _ hd))]
    rw [List.append_assoc]
    rfl

/-- Scanning a final field free of commas and quotes: the field is pushed
at the end of the line. -/
theorem scan_plain_last : ∀ (f cur : List Char) (prev : Option Char),
    (∀ c ∈ f, c ≠ ',' ∧ c ≠ '"') →
    scanLine f prev false cur = [collapseQQ (cur ++ f)] := by
  intro f
  induction f with
  | nil =>
    intro cur prev _
    rw [List.append_nil]
    rfl
  | cons c f' ih =>
    intro cur prev h
    have hc := h c (List.mem_cons_self _ _)
    rw [scanLine_cons]
    rw [if_neg (by simp [hc.2]), if_neg (by simp [hc.2]),
      if_neg (by simp [hc.1]), if_pos (by simp [hc.2])]
    rw [ih (cur ++ [c]) (some c) (fun d hd => h d (List.mem_cons_of_mem _ hd))]
    rw [List.append_assoc]
    rfl

theorem replQQ_cons_ne (c : Char) (r : List Char) (hc : c ≠ '"') :
    replQQ (c :: r) = c :: replQQ r := by
  rw [replQQ]
  intro hc1
  exact absurd hc1 hc

/-- Scanning the doubled-quote content of a quoted note followed by the
closing quote, from inside quoted mode: the original content is appended
to the current field and the field is pushed at the end of the line. -/
theorem scan_quoted : ∀ (ns : List Char) (pv : Char) (cur : List Char),
    qok pv ns = true →
    scanLine (replQQ ns ++ ['"']) (some pv) true cur = [collapseQQ (cur ++ ns)] := by
  intro ns
  induction ns with
  | nil =>
    intro pv cur _
    rw [show replQQ [] ++ ['"'] = ['"'] from rfl, List.append_nil, scanLine_cons]
    by_cases hpv : pv = ','
    · rw [if_pos (by simp [hpv])]
      rfl
    · rw [if_neg (by simp [hpv]), if_pos (by simp)]
      rfl
  | cons c ns' ih =>
    intro pv cur h
    by_cases hc : c = '"'
    · subst hc
      rw [qok_cons_quote] at h
      simp only [Bool.and_eq_true, bne_iff_ne, ne_eq, Bool.not_eq_true',
        beq_eq_false_iff_ne] at h
      have h1 : ns'.head? ≠ some '"' := h.1.1
      have h2 : (pv == ',' && ns'.head? == some ',') = false := by
        simpa using h.1.2
      have h3 : qok '"' ns' = true := h.2
      have hrepl : replQQ ('"' :: ns') = '"' :: '"' :: replQQ ns' := rfl
      rw [hrepl, List.cons_append, List.cons_append]
      by_cases hpv : pv = ','
      · subst hpv
        rw [scanLine_cons, if_pos (by simp)]
        cases ns' with
        | nil =>
          rw [show replQQ ([] : List Char) ++ ['"'] = ['"'] from rfl]
          rw [scanLine_cons]
          rw [if_neg (by simp), if_neg (by simp), if_neg (by simp),
            if_neg (by simp)]
          rfl
        | cons d r2 =>
          have hd : d ≠ '"' := fun he => h1 (by rw [he]; rfl)
          have hdc : d ≠ ',' := by
            intro he
            subst he
            simp at h2
          rw [replQQ_cons_ne d r2 hd, List.cons_append, scanLine_cons]
          rw [if_neg (by simp), if_neg (by simp [hdc]), if_neg (by simp),
            if_pos (by simp [hd])]
          rw [show d :: (replQQ r2 ++ ['"']) = replQQ (d :: r2) ++ ['"'] from by
            rw [replQQ_cons_ne d r2 hd, List.cons_append]]
          rw [ih '"' (cur ++ ['"']) h3, List.append_assoc]
          rfl
      · rw [scanLine_cons]
        rw [if_neg (by simp [hpv]), if_neg (by simp), if_neg (by simp),
          if_neg (by simp)]
        show scanLine (replQQ ns' ++ ['"']) (some '"') true (cur ++ ['"']) =
          [collapseQQ (cur ++ '"' :: ns')]
        rw [ih '"' (cur ++ ['"']) h3, List.append_assoc]
        rfl
    · have hqk : qok c ns' = true := by rw [← qok_cons_ne pv c ns' hc]; exact h
      rw [replQQ_cons_ne c ns' hc, List.cons_append, scanLine_cons]
      rw [if_neg (by simp [hc]), if_neg (by simp [hc]), if_neg (by simp),
        if_pos (by simp [hc])]
      rw [ih c (cur ++ [c]) hqk, List.append_assoc]
      rfl

theorem not_mem_of_contains_false (l : List Char) (a : Char)
    (h : l.contains a = false) : a ∉ l := by
  intro hm
  rw [show l.contains a = l.elem a from rfl, List.elem_iff.mpr hm] at h
  exact absurd h (by simp)

/-- Scanning an escaped note as the last field of the line (the preceding
character is the separating comma). -/
theorem scan_note (note cur : List Char) (hq : qok '"' note = true) :
    scanLine (escapeCSVField note) (some ',') false cur =
      [collapseQQ (cur ++ note)] := by
  unfold escapeCSVField
  by_cases hs : (note.contains ',' = true ∨ note.contains '\n' = true ∨
      note.contains '"' = true)
  · rw [if_pos hs]
    rw [List.cons_append, scanLine_cons, if_pos (by simp)]
    exact scan_quoted note '"' cur hq
  · rw [if_neg hs]
    push_neg at hs
    simp only [Bool.not_eq_true] at hs
    apply scan_plain_last
    intro c hcm
    exact ⟨fun e => absurd (e ▸ hcm) (not_mem_of_contains_false _ _ hs.1),
      fun e => absurd (e ▸ hcm) (not_mem_of_contains_false _ _ hs.2.2)⟩

theorem plainFieldB_spec (s : String) (h : plainFieldB s = true) :
    chars s ≠ [] ∧ (∀ c ∈ chars s, c ≠ ',' ∧ c ≠ '"' ∧ c ≠ '\n') ∧
      trimChars (chars s) = chars s := by
  simp only [plainFieldB, Bool.and_eq_true, decide_eq_true_eq, beq_iff_eq,
    Bool.not_eq_true'] at h
  obtain ⟨⟨⟨⟨hne, hc1⟩, hc2⟩, hc3⟩, htrim⟩ := h
  refine ⟨hne, ?_, htrim⟩
  intro c hcm
  exact ⟨fun e => absurd (e ▸ hcm) (not_mem_of_contains_false _ _ hc1),
    fun e => absurd (e ▸ hcm) (not_mem_of_contains_false _ _ hc2),
    fun e => absurd (e ▸ hcm) (not_mem_of_contains_false _ _ hc3)⟩

theorem goodNoteB_spec (s : String) (h : goodNoteB s = true) :
    '\n' ∉ chars s ∧ trimChars (chars s) = chars s ∧
      qok '"' (chars s) = true := by
  simp only [goodNoteB, Bool.and_eq_true, beq_iff_eq, Bool.not_eq_true'] at h
  exact ⟨not_mem_of_contains_false _ _ h.1.1, h.1.2, h.2⟩

theorem joinComma_cons (f g : List Char) (r : List (List Char)) :
    joinComma (f :: g :: r) = f ++ ',' :: joinComma (g :: r) := rfl

/-- Components of `goodTradeB`. -/
theorem goodTradeB_spec (t : Trade) (h : goodTradeB t = true) :
    t.ticker = none ∧ plainFieldB t.date = true ∧ plainFieldB t.tradeSetup = true ∧
      plainFieldB t.rr = true ∧ plainFieldB t.activeMgmt = true ∧
      plainFieldB t.execution = true ∧ pnlOkB t.pnl = true ∧
      goodNoteB t.note = true := by
  simp only [goodTradeB, Bool.and_eq_true, beq_iff_eq] at h
  tauto

theorem joinComma8 (a b c d e f g h : List Char) :
    joinComma [a, b, c, d, e, f, g, h] =
      a ++ ',' :: (b ++ ',' :: (c ++ ',' :: (d ++ ',' :: (e ++ ',' ::
        (f ++ ',' :: (g ++ ',' :: h)))))) := rfl

/-- The scanner recovers the eight raw fields of an exported row. -/
theorem scanRow (t : Trade) (h : goodTradeB t = true) :
    scanLine (encodeRow t) none false [] = rawFields t := by
  obtain ⟨-, hd, hts, hrr, ham, hex, -, hnote⟩ := goodTradeB_spec t h
  have hd' := (plainFieldB_spec _ hd).2.1
  have hts' := (plainFieldB_spec _ hts).2.1
  have hrr' := (plainFieldB_spec _ hrr).2.1
  have ham' := (plainFieldB_spec _ ham).2.1
  have hex' := (plainFieldB_spec _ hex).2.1
  have hnq := (goodNoteB_spec _ hnote).2.2
  show scanLine (joinComma [jnumIntRepr t.id, chars t.date, chars t.tradeSetup,
    chars t.rr, jnumRatRepr t.pnl, chars t.activeMgmt, chars t.execution,
    escapeCSVField (chars t.note)]) none false [] = rawFields t
  rw [joinComma8]
  rw [scan_plain_field _ _ _ _ (fun c hc => ⟨(jnumIntRepr_chars t.id c hc).1,
    (jnumIntRepr_chars t.id c hc).2.1⟩)]
  rw [scan_plain_field _ _ _ _ (fun c hc => ⟨(hd' c hc).1, (hd' c hc).2.1⟩)]
  rw [scan_plain_field _ _ _ _ (fun c hc => ⟨(hts' c hc).1, (hts' c hc).2.1⟩)]
  rw [scan_plain_field _ _ _ _ (fun c hc => ⟨(hrr' c hc).1, (hrr' c hc).2.1⟩)]
  rw [scan_plain_field _ _ _ _ (fun c hc => ⟨(jnumRatRepr_chars t.pnl c hc).1,
    (jnumRatRepr_chars t.pnl c hc).2.1⟩)]
  rw [scan_plain_field _ _ _ _ (fun c hc => ⟨(ham' c hc).1, (ham' c hc).2.1⟩)]
  rw [scan_plain_field _ _ _ _ (fun c hc => ⟨(hex' c hc).1, (hex' c hc).2.1⟩)]
  rw [scan_note _ _ hnq]
  simp only [List.nil_append]
  rw [collapseQQ_no_quote _ (fun c hc => (jnumIntRepr_chars t.id c hc).2.1),
    collapseQQ_no_quote _ (fun c hc => (hd' c hc).2.1),
    collapseQQ_no_quote _ (fun c hc => (hts' c hc).2.1),
    collapseQQ_no_quote _ (fun c hc => (hrr' c hc).2.1),
    collapseQQ_no_quote _ (fun c hc => (jnumRatRepr_chars t.pnl c hc).2.1),
    collapseQQ_no_quote _ (fun c hc => (ham' c hc).2.1),
    collapseQQ_no_quote _ (fun c hc => (hex' c hc).2.1),
    collapseQQ_of_qok _ _ hnq]
  rfl

/-- Row round trip: a well-behaved trade's exported row parses back to the
same record. -/
theorem parseCSVLine_encodeRow (t : Trade) (h : goodTradeB t = true) :
    parseCSVLine (encodeRow t) = some t := by
  obtain ⟨htk, hd, hts, hrr, ham, hex, hpnl, hnote⟩ := goodTradeB_spec t h
  unfold parseCSVLine
  rw [scanRow t h]
  simp only [rawFields]
  rw [if_neg (by
    push_neg
    exact ⟨jnumIntRepr_ne_nil t.id, (plainFieldB_spec _ hd).1,
      (plainFieldB_spec _ hts).1, (plainFieldB_spec _ hrr).1,
      jnumRatRepr_ne_nil t.pnl, (plainFieldB_spec _ ham).1,
      (plainFieldB_spec _ hex).1⟩)]
  rw [parse_jnumIntRepr, parse_jnumRatRepr _ hpnl,
    (plainFieldB_spec _ hd).2.2, (plainFieldB_spec _ hts).2.2,
    (plainFieldB_spec _ hrr).2.2, (plainFieldB_spec _ ham).2.2,
    (plainFieldB_spec _ hex).2.2, (goodNoteB_spec _ hnote).2.1]
  rw [← htk]
  rfl

theorem trimEnd_length_le (l : List Char) : (trimEnd l).length ≤ l.length := by
  unfold trimEnd
  rw [List.length_reverse]
  calc (l.reverse.dropWhile isWS).length ≤ l.reverse.length :=
        (List.dropWhile_suffix isWS).sublist.length_le
    _ = l.length := List.length_reverse l

theorem trimEnd_of_trimChars (l : List Char) (h : trimChars l = l) :
    trimEnd l = l := by
  have hs : l.dropWhile isWS <:+ l := List.dropWhile_suffix isWS
  have h1 : (trimChars l).length ≤ (l.dropWhile isWS).length := trimEnd_length_le _
  rw [h] at h1
  have he : l.dropWhile isWS = l :=
    hs.eq_of_length (le_antisymm hs.sublist.length_le h1)
  have h2 : trimChars l = trimEnd l := by unfold trimChars; rw [he]
  rw [← h2, h]

theorem trimEnd_newline (X : List Char) : trimEnd (X ++ ['\n']) = trimEnd X := by
  unfold trimEnd
  rw [List.reverse_append]
  simp only [List.reverse_singleton, List.singleton_append]
  rw [List.dropWhile_cons, if_pos (by decide)]

theorem trimEnd_snoc_non_ws (X : List Char) (a : Char) (hws : isWS a = false) :
    trimEnd (X ++ [a]) = X ++ [a] := by
  unfold trimEnd
  rw [List.reverse_append]
  simp only [List.reverse_singleton, List.singleton_append]
  rw [List.dropWhile_cons, if_neg (by simp [hws])]
  simp

theorem last_non_ws_of_trimEnd (Y : List Char) (a : Char)
    (h : trimEnd (Y ++ [a]) = Y ++ [a]) : isWS a = false := by
  by_contra hw
  rw [Bool.not_eq_false] at hw
  have he : trimEnd (Y ++ [a]) = trimEnd Y := by
    unfold trimEnd
    rw [List.reverse_append]
    simp only [List.reverse_singleton, List.singleton_append]
    rw [List.dropWhile_cons, if_pos hw]
  have hl := trimEnd_length_le Y
  rw [← he, h] at hl
  simp at hl

theorem trimChars_ne_nil (l : List Char) (c : Char) (hc : c ∈ l)
    (hw : isWS c = false) : trimChars l ≠ [] := by
  intro h
  have hc' : c ∈ l.dropWhile isWS := by
    have hsplit : c ∈ l.takeWhile isWS ++ l.dropWhile isWS := by
      rw [List.takeWhile_append_dropWhile]; exact hc
    rcases List.mem_append.mp hsplit with h1 | h2
    · exact absurd (List.mem_takeWhile_imp h1) (by simp [hw])
    · exact h2
  unfold trimChars trimEnd at h
  rw [List.reverse_eq_nil_iff, List.dropWhile_eq_nil_iff] at h
  exact absurd (h c (List.mem_reverse.mpr hc')) (by simp [hw])

theorem splitNl_append_cons : ∀ (a x : List Char), '\n' ∉ a →
    splitNl (a ++ '\n' :: x) = a :: splitNl x := by
  intro a
  induction a with
  | nil =>
    intro x _
    show splitNl ('\n' :: x) = [] :: splitNl x
    conv_lhs => rw [splitNl]
    rw [if_pos rfl]
  | cons c r ih =>
    intro x h
    have hc : c ≠ '\n' := fun e => h (by simp [e])
    show splitNl (c :: (r ++ '\n' :: x)) = (c :: r) :: splitNl x
    conv_lhs => rw [splitNl]
    rw [if_neg hc, ih x (fun hm => h (by simp [hm]))]

theorem splitNl_no_nl : ∀ l : List Char, '\n' ∉ l → splitNl l = [l] := by
  intro l
  induction l with
  | nil => intro _; rfl
  | cons c r ih =>
    intro h
    have hc : c ≠ '\n' := fun e => h (by simp [e])
    conv_lhs => rw [splitNl]
    rw [if_neg hc, ih (fun hm => h (by simp [hm]))]

theorem replQQ_mem (c : Char) : ∀ l : List Char, c ∈ replQQ l → c = '"' ∨ c ∈ l := by
  intro l
  induction l with
  | nil => intro hm; exact absurd hm (by simp [replQQ])
  | cons d r ih =>
    intro hm
    by_cases hd : d = '"'
    · subst hd
      have he : replQQ ('"' :: r) = '"' :: '"' :: replQQ r := rfl
      rw [he] at hm
      rcases List.mem_cons.mp hm with h1 | h2
      · exact Or.inl h1
      · rcases List.mem_cons.mp h2 with h3 | h4
        · exact Or.inl h3
        · rcases ih h4 with h5 | h6
          · exact Or.inl h5
          · exact Or.inr (List.mem_cons_of_mem _ h6)
    · rw [replQQ_cons_ne d r hd] at hm
      rcases List.mem_cons.mp hm with h1 | h2
      · exact Or.inr (h1 ▸ List.mem_cons_self d r)
      · rcases ih h2 with h3 | h4
        · exact Or.inl h3
        · exact Or.inr (List.mem_cons_of_mem _ h4)

theorem esc_no_nl (s : List Char) (h : '\n' ∉ s) : '\n' ∉ escapeCSVField s := by
  unfold escapeCSVField
  by_cases hq : (s.contains ',' = true ∨ s.contains '\n' = true ∨
      s.contains '"' = true)
  · rw [if_pos hq]
    intro hm
    rcases List.mem_cons.mp hm with h1 | h2
    · exact absurd h1 (by decide)
    · rcases List.mem_append.mp h2 with h3 | h4
      · rcases replQQ_mem _ _ h3 with h5 | h6
        · exact absurd h5 (by decide)
        · exact h h6
      · exact absurd h4 (by decide)
  · rw [if_neg hq]
    exact h

theorem encodeRow_no_nl (t : Trade) (h : goodTradeB t = true) :
    '\n' ∉ encodeRow t := by
  obtain ⟨-, hd, hts, hrr, ham, hex, -, hnote⟩ := goodTradeB_spec t h
  show '\n' ∉ joinComma [jnumIntRepr t.id, chars t.date, chars t.tradeSetup,
    chars t.rr, jnumRatRepr t.pnl, chars t.activeMgmt, chars t.execution,
    escapeCSVField (chars t.note)]
  rw [joinComma8]
  intro hm
  simp only [List.mem_append, List.mem_cons] at hm
  rcases hm with h | h | h | h | h | h | h | h | h | h | h | h | h | h | h
  all_goals first
    | exact absurd h (by decide)
    | exact ((jnumIntRepr_chars t.id _ h).2.2.1 rfl)
    | exact ((jnumRatRepr_chars t.pnl _ h).2.2.1 rfl)
    | exact (((plainFieldB_spec _ hd).2.1 _ h).2.2 rfl)
    | exact (((plainFieldB_spec _ hts).2.1 _ h).2.2 rfl)
    | exact (((plainFieldB_spec _ hrr).2.1 _ h).2.2 rfl)
    | exact (((plainFieldB_spec _ ham).2.1 _ h).2.2 rfl)
    | exact (((plainFieldB_spec _ hex).2.1 _ h).2.2 rfl)
    | exact (esc_no_nl _ (goodNoteB_spec _ hnote).1 h)

theorem esc_note_snoc (s : List Char) (htr : trimChars s = s) :
    ∃ Y a, ',' :: escapeCSVField s = Y ++ [a] ∧ isWS a = false := by
  rcases List.eq_nil_or_concat s with hnil | ⟨L, b, hLb⟩
  · subst hnil
    exact ⟨[], ',', by decide, by decide⟩
  · rw [List.concat_eq_append] at hLb
    by_cases hq : (s.contains ',' = true ∨ s.contains '\n' = true ∨
        s.contains '"' = true)
    · refine ⟨',' :: '"' :: replQQ s, '"', ?_, by decide⟩
      unfold escapeCSVField
      rw [if_pos hq]
      rfl
    · have hb : isWS b = false :=
        last_non_ws_of_trimEnd L b (hLb ▸ trimEnd_of_trimChars s htr)
      refine ⟨',' :: L, b, ?_, hb⟩
      unfold escapeCSVField
      rw [if_neg hq, hLb]
      rfl

theorem encodeRow_snoc (t : Trade) (h : goodTradeB t = true) :
    ∃ Y a, encodeRow t = Y ++ [a] ∧ isWS a = false := by
  have hnote := (goodTradeB_spec t h).2.2.2.2.2.2.2
  obtain ⟨Y, a, hYa, hws⟩ := esc_note_snoc (chars t.note) (goodNoteB_spec _ hnote).2.1
  refine ⟨jnumIntRepr t.id ++ ',' :: (chars t.date ++ ',' :: (chars t.tradeSetup ++
    ',' :: (chars t.rr ++ ',' :: (jnumRatRepr t.pnl ++ ',' :: (chars t.activeMgmt ++
    ',' :: (chars t.execution ++ Y)))))), a, ?_, hws⟩
  show joinComma [jnumIntRepr t.id, chars t.date, chars t.tradeSetup,
    chars t.rr, jnumRatRepr t.pnl, chars t.activeMgmt, chars t.execution,
    escapeCSVField (chars t.note)] = _
  rw [joinComma8, hYa]
  simp [List.append_assoc]

theorem bodyCore_snoc : ∀ (t : Trade) (ts : List Trade),
    goodTradeB t = true → (∀ u ∈ ts, goodTradeB u = true) →
    ∃ Y a, bodyCore (t :: ts) = Y ++ [a] ∧ isWS a = false := by
  intro t ts
  induction ts generalizing t with
  | nil => intro ht _; exact encodeRow_snoc t ht
  | cons u r ih =>
    intro ht hall
    obtain ⟨Y, a, hYa, hws⟩ :=
      ih u (hall u (by simp)) (fun v hv => hall v (by simp [hv]))
    refine ⟨encodeRow t ++ '\n' :: Y, a, ?_, hws⟩
    show encodeRow t ++ '\n' :: bodyCore (u :: r) = _
    rw [hYa]
    simp [List.append_assoc]

theorem encodeBody_eq : ∀ (t : Trade) (ts : List Trade),
    encodeBody (t :: ts) = bodyCore (t :: ts) ++ ['\n'] := by
  intro t ts
  induction ts generalizing t with
  | nil => rfl
  | cons u r ih =>
    show encodeRow t ++ '\n' :: encodeBody (u :: r) =
      (encodeRow t ++ '\n' :: bodyCore (u :: r)) ++ ['\n']
    rw [ih u]
    simp [List.append_assoc]

theorem splitNl_bodyCore : ∀ (t : Trade) (ts : List Trade),
    goodTradeB t = true → (∀ u ∈ ts, goodTradeB u = true) →
    splitNl (bodyCore (t :: ts)) = (t :: ts).map encodeRow := by
  intro t ts
  induction ts generalizing t with
  | nil => intro ht _; exact splitNl_no_nl _ (encodeRow_no_nl t ht)
  | cons u r ih =>
    intro ht hall
    show splitNl (encodeRow t ++ '\n' :: bodyCore (u :: r)) =
      encodeRow t :: (u :: r).map encodeRow
    rw [splitNl_append_cons _ _ (encodeRow_no_nl t ht),
      ih u (hall u (by simp)) (fun v hv => hall v (by simp [hv]))]

theorem trimChars_encodeRow_ne (t : Trade) : trimChars (encodeRow t) ≠ [] := by
  obtain ⟨c, hc⟩ := List.exists_mem_of_ne_nil _ (jnumIntRepr_ne_nil t.id)
  refine trimChars_ne_nil _ c ?_ ((jnumIntRepr_chars t.id c hc).2.2.2)
  show c ∈ joinComma [jnumIntRepr t.id, chars t.date, chars t.tradeSetup,
    chars t.rr, jnumRatRepr t.pnl, chars t.activeMgmt, chars t.execution,
    escapeCSVField (chars t.note)]
  rw [joinComma8]
  exact List.mem_append.mpr (Or.inl hc)

theorem decodeLines_map : ∀ ts : List Trade, (∀ u ∈ ts, goodTradeB u = true) →
    decodeLines (ts.map encodeRow) = (ts, 0) := by
  intro ts
  induction ts with
  | nil => intro _; rfl
  | cons t r ih =>
    intro hall
    show decodeLines (encodeRow t :: r.map encodeRow) = (t :: r, 0)
    show (if trimChars (encodeRow t) = [] then decodeLines (r.map encodeRow)
      else
        match parseCSVLine (encodeRow t) with
        | some tr => (tr :: (decodeLines (r.map encodeRow)).1,
            (decodeLines (r.map encodeRow)).2)
        | none => ((decodeLines (r.map encodeRow)).1,
            (decodeLines (r.map encodeRow)).2 + 1)) = (t :: r, 0)
    rw [if_neg (trimChars_encodeRow_ne t),
      parseCSVLine_encodeRow t (hall t (by simp)),
      ih (fun v hv => hall v (by simp [hv]))]

theorem trimChars_csvDoc (t : Trade) (ts : List Trade)
    (ht : goodTradeB t = true) (hall : ∀ u ∈ ts, goodTradeB u = true) :
    trimChars (csvDoc (t :: ts)) = headerChars ++ '\n' :: bodyCore (t :: ts) := by
  obtain ⟨B, a, hBa, hws⟩ := bodyCore_snoc t ts ht hall
  have h1 : csvDoc (t :: ts) = 'I' ::
      (chars ("D,Date,TradeSetup,RR,PnL,ActiveMgmt,Execution,Note") ++
        '\n' :: encodeBody (t :: ts)) := rfl
  unfold trimChars
  rw [h1, List.dropWhile_cons, if_neg (by decide), ← h1]
  show trimEnd (headerChars ++ '\n' :: encodeBody (t :: ts)) = _
  rw [encodeBody_eq t ts, hBa]
  rw [show ('\n' :: ((B ++ [a]) ++ ['\n'])) = ('\n' :: (B ++ [a])) ++ ['\n'] from rfl,
    ← List.append_assoc, trimEnd_newline]
  rw [show ('\n' :: (B ++ [a]) : List Char) = ('\n' :: B) ++ [a] from rfl,
    ← List.append_assoc, trimEnd_snoc_non_ws _ _ hws]

/-- Document round trip for a nonempty, well-behaved collection. -/
theorem decodeCSV_csvDoc (t : Trade) (ts : List Trade)
    (ht : goodTradeB t = true) (hall : ∀ u ∈ ts, goodTradeB u = true) :
    decodeCSV (csvDoc (t :: ts)) = some (t :: ts, 0) := by
  unfold decodeCSV
  rw [trimChars_csvDoc t ts ht hall,
    splitNl_append_cons _ _ (by decide : '\n' ∉ headerChars),
    splitNl_bodyCore t ts ht hall, List.map_cons]
  show (if trimChars headerChars ≠ headerChars then none
    else some (decodeLines (encodeRow t :: List.map encodeRow ts))) = some (t :: ts, 0)
  rw [if_neg (by
    intro hne
    exact hne (by decide : trimChars headerChars = headerChars))]
  rw [show (encodeRow t :: ts.map encodeRow) = (t :: ts).map encodeRow from rfl,
    decodeLines_map (t :: ts) (by
      intro u hu
      rcases List.mem_cons.mp hu with h1 | h2
      · exact h1 ▸ ht
      · exact hall u h2)]

/-- C1: for every non-empty collection in which every record is
well-behaved (no ticker, nonempty trim-fixed comma/quote/newline-free
required fields, PnL that is NaN or a finite decimal, and a trimmed
newline-free note without doubled quotes or a comma-adjacent quote on both
sides), exporting to CSV succeeds with the header plus one line per record,
and decoding that text yields the same records in the same order with
nothing skipped.  (Amended: the unrestricted round trip of the original
claim is refuted by `C1_round_trip_counterexample` below.) -/
theorem C1_round_trip_amended (ts : List Trade) (hne : ts ≠ [])
    (h : ∀ u ∈ ts, goodTradeB u = true) :
    exportToCSV ts = some (csvDoc ts) ∧ decodeCSV (csvDoc ts) = some (ts, 0) := by
  rcases ts with _ | ⟨t, r⟩
  · exact absurd rfl hne
  · constructor
    · unfold exportToCSV
      rw [if_neg (by simp)]
    · exact decodeCSV_csvDoc t r (h t (by simp)) (fun u hu => h u (by simp [hu]))

theorem C1_round_trip_amended_witness :
    ([c1w] ≠ [] ∧ ∀ u ∈ [c1w], goodTradeB u = true) ∧
      exportToCSV [c1w] = some (csvDoc [c1w]) ∧
      decodeCSV (csvDoc [c1w]) = some ([c1w], 0) :=
  ⟨⟨by decide, by decide⟩, C1_round_trip_amended [c1w] (by decide) (by decide)⟩

/-- C1 counterexample: the original unconditional round trip fails — a
record whose note contains a newline exports successfully, but decoding the
exported document does not return the original single-record list (the
quoted note is cut at the newline by the line splitter). -/
theorem C1_round_trip_counterexample :
    exportToCSV [c1trade] = some (csvDoc [c1trade]) ∧
      (decodeCSV (csvDoc [c1trade])).map Prod.fst ≠ some [c1trade] := by
  constructor
  · decide
  · decide
